import Mathlib

set_option maxHeartbeats 2000000
set_option linter.unusedSectionVars false

/-! Verification of the `ecs-tiny` entity-component store (`src/src/lib.rs`).

The development is a shallow embedding: the `slab::Slab` free-list allocator
that backs every collection of the store is modelled first, then the `ECS`
structure and each of its public operations is translated from the Rust
source.  `ahash::AHashMap` fields are modelled as functions into `Option`,
and a `.check()` call (`Option::expect("integrity check")`, which panics) is
modelled by an explicit `none` ("panic") outcome of the operation. -/

namespace EcsTiny

/-- One slot of a `slab::Slab`: a vacant slot stores the index of the next
slot on the free list, an occupied slot stores a value. -/
inductive Entry (α : Type) where
  | vacant (next : Nat)
  | occupied (val : α)
deriving DecidableEq

/-- Model of `slab::Slab`: the entry vector together with `next`, the head of
the vacant free list (what `Slab::vacant_key` returns).  The `len` counter of
the Rust struct is omitted; no operation used by `ecs-tiny` observes it. -/
structure Slab (α : Type) where
  entries : List (Entry α)
  next : Nat
deriving DecidableEq

namespace Slab

/-- `Slab::new` / `Slab::default`. -/
def new : Slab α := ⟨[], 0⟩

/-- `Slab::vacant_key`: the key the next `insert` will use. -/
def vacant_key (s : Slab α) : Nat := s.next

/-- `Slab::get`. -/
def get (s : Slab α) (k : Nat) : Option α :=
  match s.entries[k]? with
  | some (.occupied v) => some v
  | _ => none

/-- `Slab::insert`: take the free-list head as the key; if it is one past the
end, push, else fill the vacant slot and advance the free list.  The final
branch is `unreachable!()` in the Rust source; it is never taken on a
well-formed slab. -/
def insert (s : Slab α) (v : α) : Nat × Slab α :=
  if s.next = s.entries.length then
    (s.next, ⟨s.entries ++ [.occupied v], s.next + 1⟩)
  else
    match s.entries[s.next]? with
    | some (.vacant m) => (s.next, ⟨s.entries.set s.next (.occupied v), m⟩)
    | _ => (s.next, s)

/-- `Slab::try_remove`: on an occupied slot, replace it by a vacant entry
pointing at the old free-list head and make the slot the new head. -/
def try_remove (s : Slab α) (k : Nat) : Option (α × Slab α) :=
  match s.entries[k]? with
  | some (.occupied v) => some (v, ⟨s.entries.set k (.vacant s.next), k⟩)
  | _ => none

/-- Writing a value through `Slab::get_mut` at an occupied slot. -/
def update (s : Slab α) (k : Nat) (v : α) : Slab α :=
  ⟨s.entries.set k (.occupied v), s.next⟩

/-- Helper for `Slab::iter`: occupied entries of the suffix starting at
index `i`, paired with their indices. -/
def iterAux : Nat → List (Entry α) → List (Nat × α)
  | _, [] => []
  | i, .occupied v :: rest => (i, v) :: iterAux (i + 1) rest
  | i, .vacant _ :: rest => iterAux (i + 1) rest

/-- `Slab::iter` (also `IntoIterator`): `(key, value)` pairs of the occupied
slots in index order. -/
def iter (s : Slab α) : List (Nat × α) := iterAux 0 s.entries

/-- Applying `f` to every occupied slot, as a caller draining
`Slab::iter_mut` and writing through each `&mut` does. -/
def modifyAux (f : Nat → α → α) : Nat → List (Entry α) → List (Entry α)
  | _, [] => []
  | i, .occupied v :: rest => .occupied (f i v) :: modifyAux f (i + 1) rest
  | i, .vacant m :: rest => .vacant m :: modifyAux f (i + 1) rest

def modify_all (f : Nat → α → α) (s : Slab α) : Slab α :=
  ⟨modifyAux f 0 s.entries, s.next⟩

/-- The free list of a slab: starting from `k`, the chain of vacant slots,
ending at the one-past-the-end index. -/
inductive Chain (entries : List (Entry α)) : Nat → List Nat → Prop where
  | nil : Chain entries entries.length []
  | cons {k m : Nat} {ks : List Nat} :
      entries[k]? = some (.vacant m) → Chain entries m ks →
      Chain entries k (k :: ks)

/-- Well-formedness of a slab: the free list starting at `next` is an acyclic
chain of vacant slots.  This is the internal invariant of `slab::Slab`. -/
def WF (s : Slab α) : Prop := ∃ ks, Chain s.entries s.next ks ∧ ks.Nodup

theorem mem_chain_vacant {entries : List (Entry α)} {k : Nat} {ks : List Nat}
    (h : Chain entries k ks) : ∀ j ∈ ks, ∃ m, entries[j]? = some (.vacant m) := by
  induction h with
  | nil => intro j hj; cases hj
  | cons hk _ ih =>
    intro j hj
    rcases List.mem_cons.mp hj with rfl | hj
    · exact ⟨_, hk⟩
    · exact ih j hj

theorem chain_set_not_mem {entries : List (Entry α)} {k : Nat} {ks : List Nat}
    (h : Chain entries k ks) (j : Nat) (x : Entry α) (hj : j ∉ ks) :
    Chain (entries.set j x) k ks := by
  induction h with
  | nil =>
    have hl : (entries.set j x).length = entries.length := List.length_set ..
    exact hl ▸ Chain.nil
  | cons hk hc ih =>
    have hne : j ≠ _ := fun hEq => hj (hEq ▸ List.mem_cons_self _ _)
    refine Chain.cons ?_ (ih (fun hmem => hj (List.mem_cons_of_mem _ hmem)))
    rw [List.getElem?_set_ne hne]
    exact hk

theorem wf_new : (new : Slab α).WF := ⟨[], Chain.nil, List.nodup_nil⟩

theorem get_next_none {s : Slab α} (h : s.WF) : s.get s.next = none := by
  obtain ⟨es, nx⟩ := s
  obtain ⟨ks, hc, -⟩ := h
  have hc' : Chain es nx ks := hc
  clear hc
  unfold get
  cases hc' with
  | nil => rw [List.getElem?_eq_none (le_refl _)]
  | cons hk _ => rw [hk]

/-- Behaviour of `Slab::insert` on a well-formed slab: the returned key is the
old `vacant_key`, the value lands there, every other slot is untouched, and
well-formedness is preserved. -/
theorem insert_spec {s : Slab α} (h : s.WF) (v : α) :
    (s.insert v).1 = s.next ∧
    (s.insert v).2.get s.next = some v ∧
    (∀ j, j ≠ s.next → (s.insert v).2.get j = s.get j) ∧
    (s.insert v).2.WF := by
  obtain ⟨es, nx⟩ := s
  obtain ⟨ks, hc, hnd⟩ := h
  have hc' : Chain es nx ks := hc
  clear hc
  cases hc' with
  | nil =>
    have hif : (Slab.mk es es.length).insert v =
        (es.length, ⟨es ++ [.occupied v], es.length + 1⟩) := by
      unfold insert
      rw [if_pos rfl]
    rw [hif]
    refine ⟨rfl, ?_, ?_, ?_⟩
    · show get _ es.length = some v
      unfold get
      rw [show (es ++ [Entry.occupied v])[es.length]? =
            some (Entry.occupied v) from List.getElem?_concat_length ..]
    · intro j hj
      show get _ j = get _ j
      unfold get
      rcases Nat.lt_or_ge j es.length with hlt | hge
      · rw [List.getElem?_append_left hlt]
      · have hj' : es.length < j := by
          rcases Nat.eq_or_lt_of_le hge with hEq | hlt
          · exact absurd hEq.symm hj
          · exact hlt
        rw [List.getElem?_eq_none (l := es ++ [Entry.occupied v]) (by simp; omega),
            List.getElem?_eq_none hge]
    · refine ⟨[], ?_, List.nodup_nil⟩
      have hlen : (es ++ [Entry.occupied v]).length = es.length + 1 := by simp
      show Chain (es ++ [Entry.occupied v]) (es.length + 1) []
      rw [show es.length + 1 = (es ++ [Entry.occupied v]).length from hlen.symm]
      exact Chain.nil
  | @cons _ m ks' hk hc' =>
    have hne : nx ≠ es.length := by
      intro hEq
      rw [List.getElem?_eq_none (hEq ▸ le_refl _)] at hk
      exact Option.noConfusion hk
    have hlt : nx < es.length := by
      by_contra hge
      rw [List.getElem?_eq_none (by omega)] at hk
      exact Option.noConfusion hk
    have hif : (Slab.mk es nx).insert v = (nx, ⟨es.set nx (.occupied v), m⟩) := by
      unfold insert
      rw [if_neg hne]
      show (match es[nx]? with
            | some (.vacant m) => (nx, (⟨es.set nx (.occupied v), m⟩ : Slab α))
            | _ => (nx, ⟨es, nx⟩)) = _
      rw [hk]
    rw [hif]
    have hnotmem : nx ∉ ks' := (List.nodup_cons.mp hnd).1
    refine ⟨rfl, ?_, ?_, ?_⟩
    · show get _ nx = some v
      unfold get
      rw [List.getElem?_set, if_pos rfl, if_pos hlt]
    · intro j hj
      show get _ j = get _ j
      unfold get
      rw [List.getElem?_set_ne (Ne.symm hj)]
    · exact ⟨ks', chain_set_not_mem hc' nx _ hnotmem, (List.nodup_cons.mp hnd).2⟩

theorem insert_fst {s : Slab α} (v : α) : (s.insert v).1 = s.next := by
  unfold insert
  split
  · rfl
  · split <;> rfl

theorem try_remove_eq_none {s : Slab α} {k : Nat} :
    s.try_remove k = none ↔ s.get k = none := by
  unfold try_remove get
  cases h : s.entries[k]? with
  | none => simp
  | some e => cases e <;> simp

theorem try_remove_of_get {s : Slab α} {k : Nat} {v : α} (h : s.get k = some v) :
    s.try_remove k = some (v, ⟨s.entries.set k (.vacant s.next), k⟩) := by
  unfold get at h
  unfold try_remove
  cases he : s.entries[k]? with
  | none => rw [he] at h; exact absurd h (by simp)
  | some e =>
    cases e with
    | vacant m => rw [he] at h; exact absurd h (by simp)
    | occupied w =>
      rw [he] at h
      cases h
      rfl

theorem get_of_try_remove {s : Slab α} {k : Nat} {v : α} {s' : Slab α}
    (h : s.try_remove k = some (v, s')) : s.get k = some v := by
  unfold try_remove at h
  unfold get
  cases he : s.entries[k]? with
  | none => rw [he] at h; exact absurd h (by simp)
  | some e =>
    cases e with
    | vacant m => rw [he] at h; exact absurd h (by simp)
    | occupied w => rw [he] at h; cases h; rfl

theorem try_remove_state {s : Slab α} {k : Nat} {v : α} {s' : Slab α}
    (h : s.try_remove k = some (v, s')) :
    s' = ⟨s.entries.set k (.vacant s.next), k⟩ := by
  have hg := get_of_try_remove h
  rw [try_remove_of_get hg] at h
  injection h with h'
  injection h' with h1 h2
  exact h2.symm

theorem try_remove_get_self {s : Slab α} {k : Nat} {v : α} {s' : Slab α}
    (h : s.try_remove k = some (v, s')) : s'.get k = none := by
  rw [try_remove_state h]
  unfold get
  have hg := get_of_try_remove h
  unfold get at hg
  have hlt : k < s.entries.length := by
    by_contra hge
    rw [List.getElem?_eq_none (by omega)] at hg
    exact Option.noConfusion hg
  show (match (s.entries.set k (.vacant s.next))[k]? with
        | some (.occupied v) => some v | _ => none) = none
  rw [List.getElem?_set, if_pos rfl, if_pos hlt]

theorem try_remove_get_ne {s : Slab α} {k : Nat} {v : α} {s' : Slab α}
    (h : s.try_remove k = some (v, s')) (j : Nat) (hj : j ≠ k) :
    s'.get j = s.get j := by
  rw [try_remove_state h]
  unfold get
  show (match (s.entries.set k (.vacant s.next))[j]? with
        | some (.occupied v) => some v | _ => none) =
       (match s.entries[j]? with
        | some (.occupied v) => some v | _ => none)
  rw [List.getElem?_set_ne (Ne.symm hj)]

theorem try_remove_wf {s : Slab α} {k : Nat} {v : α} {s' : Slab α}
    (h : s.try_remove k = some (v, s')) (hwf : s.WF) : s'.WF := by
  obtain ⟨ks, hc, hnd⟩ := hwf
  have hg := get_of_try_remove h
  have hocc : s.entries[k]? = some (.occupied v) := by
    unfold get at hg
    cases he : s.entries[k]? with
    | none => rw [he] at hg; exact absurd hg (by simp)
    | some e =>
      cases e with
      | vacant m => rw [he] at hg; exact absurd hg (by simp)
      | occupied w => rw [he] at hg; cases hg; rfl
  have hnotmem : k ∉ ks := by
    intro hmem
    obtain ⟨m, hm⟩ := mem_chain_vacant hc k hmem
    rw [hocc] at hm
    exact Entry.noConfusion (Option.some.injEq _ _ ▸ hm)
  have hlt : k < s.entries.length := by
    by_contra hge
    rw [List.getElem?_eq_none (by omega)] at hocc
    exact Option.noConfusion hocc
  rw [try_remove_state h]
  refine ⟨k :: ks, Chain.cons ?_ (chain_set_not_mem hc k _ hnotmem),
    List.nodup_cons.mpr ⟨hnotmem, hnd⟩⟩
  rw [List.getElem?_set, if_pos rfl, if_pos hlt]

theorem try_remove_next {s : Slab α} {k : Nat} {v : α} {s' : Slab α}
    (h : s.try_remove k = some (v, s')) : s'.next = k := by
  rw [try_remove_state h]

theorem get_eq_some_iff {s : Slab α} {k : Nat} {v : α} :
    s.get k = some v ↔ s.entries[k]? = some (.occupied v) := by
  unfold get
  cases he : s.entries[k]? with
  | none => simp
  | some e => cases e <;> simp

theorem mem_iterAux (l : List (Entry α)) :
    ∀ (i k : Nat) (v : α),
      (k, v) ∈ iterAux i l ↔ ∃ j, k = i + j ∧ l[j]? = some (.occupied v) := by
  induction l with
  | nil => intro i k v; simp [iterAux]
  | cons a t ih =>
    intro i k v
    cases a with
    | occupied w =>
      simp only [iterAux, List.mem_cons, Prod.mk.injEq, ih (i + 1)]
      constructor
      · rintro (⟨rfl, rfl⟩ | ⟨j, rfl, hj⟩)
        · exact ⟨0, by simp⟩
        · exact ⟨j + 1, by omega, by simpa using hj⟩
      · rintro ⟨j, rfl, hj⟩
        cases j with
        | zero =>
          simp only [List.getElem?_cons_zero, Option.some.injEq] at hj
          injection hj with hw
          left
          exact ⟨by omega, hw.symm⟩
        | succ j =>
          right
          exact ⟨j, by omega, by simpa using hj⟩
    | vacant m =>
      simp only [iterAux, ih (i + 1)]
      constructor
      · rintro ⟨j, rfl, hj⟩
        exact ⟨j + 1, by omega, by simpa using hj⟩
      · rintro ⟨j, rfl, hj⟩
        cases j with
        | zero => simp at hj
        | succ j => exact ⟨j, by omega, by simpa using hj⟩

theorem mem_iter {s : Slab α} {k : Nat} {v : α} :
    (k, v) ∈ s.iter ↔ s.get k = some v := by
  unfold iter
  rw [mem_iterAux s.entries 0 k v, get_eq_some_iff]
  constructor
  · rintro ⟨j, rfl, hj⟩
    simpa using hj
  · intro h
    exact ⟨k, by omega, h⟩

theorem mem_iter_pair {s : Slab α} {p : Nat × α} :
    p ∈ s.iter ↔ s.get p.1 = some p.2 := by
  obtain ⟨k, v⟩ := p
  exact mem_iter

theorem iterAux_pairwise (l : List (Entry α)) :
    ∀ i, (iterAux i l).Pairwise (fun p q => p.1 < q.1) := by
  induction l with
  | nil => intro i; simp [iterAux]
  | cons a t ih =>
    intro i
    have hge : ∀ p ∈ iterAux (i + 1) t, i + 1 ≤ p.1 := by
      intro p hp
      obtain ⟨k, v⟩ := p
      obtain ⟨j, rfl, -⟩ := (mem_iterAux t (i + 1) k v).mp hp
      omega
    cases a with
    | occupied w =>
      refine List.Pairwise.cons ?_ (ih (i + 1))
      intro q hq
      have := hge q hq
      omega
    | vacant m => exact ih (i + 1)

theorem iter_pairwise (s : Slab α) : s.iter.Pairwise (fun p q => p.1 < q.1) :=
  iterAux_pairwise s.entries 0

theorem iter_eq_nil {s : Slab α} (h : ∀ k, s.get k = none) : s.iter = [] := by
  cases hi : s.iter with
  | nil => rfl
  | cons p t =>
    have hp : p ∈ s.iter := hi ▸ List.mem_cons_self _ _
    have := mem_iter_pair.mp hp
    rw [h p.1] at this
    exact Option.noConfusion this

theorem modifyAux_length (f : Nat → α → α) (l : List (Entry α)) :
    ∀ i, (modifyAux f i l).length = l.length := by
  induction l with
  | nil => intro i; rfl
  | cons a t ih => intro i; cases a <;> simp [modifyAux, ih]

/-- The action of one `iter_mut` write on a single entry. -/
def mapEntry (g : α → α) : Entry α → Entry α
  | .occupied v => .occupied (g v)
  | .vacant m => .vacant m

theorem modifyAux_entry (f : Nat → α → α) (l : List (Entry α)) :
    ∀ i j, (modifyAux f i l)[j]? = (l[j]?).map (mapEntry (f (i + j))) := by
  induction l with
  | nil => intro i j; simp [modifyAux]
  | cons a t ih =>
    intro i j
    cases j with
    | zero => cases a <;> simp [modifyAux, mapEntry]
    | succ j =>
      cases a with
      | occupied w =>
        have h1 : modifyAux f i (Entry.occupied w :: t) =
            Entry.occupied (f i w) :: modifyAux f (i + 1) t := rfl
        rw [h1, List.getElem?_cons_succ, List.getElem?_cons_succ, ih (i + 1) j,
          show i + 1 + j = i + (j + 1) by omega]
      | vacant m =>
        have h1 : modifyAux f i (Entry.vacant m :: t) =
            Entry.vacant m :: modifyAux f (i + 1) t := rfl
        rw [h1, List.getElem?_cons_succ, List.getElem?_cons_succ, ih (i + 1) j,
          show i + 1 + j = i + (j + 1) by omega]

theorem modify_all_get (f : Nat → α → α) (s : Slab α) (k : Nat) :
    (s.modify_all f).get k = (s.get k).map (f k) := by
  show (match (modifyAux f 0 s.entries)[k]? with
        | some (.occupied v) => some v | _ => none) = Option.map (f k) (s.get k)
  rw [modifyAux_entry f s.entries 0 k, show (0 : Nat) + k = k by omega]
  unfold get
  cases he : s.entries[k]? with
  | none => simp
  | some e => cases e <;> simp [mapEntry]

theorem chain_modifyAux (f : Nat → α → α) {entries : List (Entry α)} {k : Nat}
    {ks : List Nat} (h : Chain entries k ks) :
    Chain (modifyAux f 0 entries) k ks := by
  induction h with
  | nil =>
    rw [show entries.length = (modifyAux f 0 entries).length from
      (modifyAux_length f entries 0).symm]
    exact Chain.nil
  | cons hk _ ih =>
    refine Chain.cons ?_ ih
    rw [modifyAux_entry f entries 0 _, hk]
    rfl

theorem modify_all_wf (f : Nat → α → α) {s : Slab α} (h : s.WF) :
    (s.modify_all f).WF := by
  obtain ⟨ks, hc, hnd⟩ := h
  exact ⟨ks, chain_modifyAux f hc, hnd⟩

theorem modify_all_next (f : Nat → α → α) (s : Slab α) :
    (s.modify_all f).next = s.next := rfl

theorem update_get_self {s : Slab α} {k : Nat} {w : α} (h : s.get k = some w) (v : α) :
    (s.update k v).get k = some v := by
  have hk := get_eq_some_iff.mp h
  have hlt : k < s.entries.length := by
    by_contra hge
    rw [List.getElem?_eq_none (by omega)] at hk
    exact Option.noConfusion hk
  show (match (s.entries.set k (.occupied v))[k]? with
        | some (.occupied v) => some v | _ => none) = some v
  rw [List.getElem?_set, if_pos rfl, if_pos hlt]

theorem update_get_ne (s : Slab α) (k : Nat) (v : α) (j : Nat) (hj : j ≠ k) :
    (s.update k v).get j = s.get j := by
  show (match (s.entries.set k (.occupied v))[j]? with
        | some (.occupied v) => some v | _ => none) =
       (match s.entries[j]? with
        | some (.occupied v) => some v | _ => none)
  rw [List.getElem?_set_ne (Ne.symm hj)]

theorem new_get (k : Nat) : (new : Slab α).get k = none := by
  unfold new get
  simp

theorem wf_getD {m : Option (Slab α)} (h : ∀ cms, m = some cms → cms.WF) :
    (m.getD Slab.new).WF := by
  cases m with
  | none => exact wf_new
  | some cms => exact h cms rfl

theorem update_wf {s : Slab α} (h : s.WF) {k : Nat} {w : α}
    (hk : s.get k = some w) (v : α) : (s.update k v).WF := by
  obtain ⟨ks, hc, hnd⟩ := h
  have hocc := get_eq_some_iff.mp hk
  have hnotmem : k ∉ ks := by
    intro hmem
    obtain ⟨m, hm⟩ := mem_chain_vacant hc k hmem
    rw [hocc] at hm
    exact Entry.noConfusion (Option.some.injEq _ _ ▸ hm)
  exact ⟨ks, chain_set_not_mem hc k _ hnotmem, hnd⟩

end Slab

/-- `ahash::AHashMap` modelled extensionally: a function into `Option`.
The store never iterates over a hash map, so no order information is needed. -/
def HMap (κ α : Type) : Type := κ → Option α

def HMap.empty : HMap κ α := fun _ => none

def HMap.ins [DecidableEq κ] (m : HMap κ α) (k : κ) (v : α) : HMap κ α :=
  fun k' => if k' = k then some v else m k'

def HMap.del [DecidableEq κ] (m : HMap κ α) (k : κ) : HMap κ α :=
  fun k' => if k' = k then none else m k'

theorem HMap.ins_self [DecidableEq κ] (m : HMap κ α) (k : κ) (v : α) :
    m.ins k v k = some v := by
  simp [HMap.ins]

theorem HMap.ins_ne [DecidableEq κ] (m : HMap κ α) (k : κ) (v : α) (k' : κ)
    (h : k' ≠ k) : m.ins k v k' = m k' := by
  simp [HMap.ins, h]

theorem HMap.del_self [DecidableEq κ] (m : HMap κ α) (k : κ) :
    m.del k k = none := by
  simp [HMap.del]

theorem HMap.del_ne [DecidableEq κ] (m : HMap κ α) (k : κ) (k' : κ)
    (h : k' ≠ k) : m.del k k' = m k' := by
  simp [HMap.del, h]

/-- `CompMeta<T>` from the source: the component value plus the owning entity
key and the two back-references into the entity's association slabs. -/
structure CompMeta (C : Type) where
  inner : C
  entity_key : Nat
  relation_0 : Nat
  relation_1 : Nat

/-- The `ECS<C, K>` store.  `entities` is the entity table,
`comp_metas` maps a component kind to the slab of that kind's component
records, `relation_0` maps an entity key to its directory slab of
`(kind, slab key)` pairs, and `relation_1` maps `(entity key, kind)` to the
slab of slab keys used for scoped iteration. -/
structure ECS (C K : Type) where
  entities : Slab Unit
  comp_metas : HMap K (Slab (CompMeta C))
  relation_0 : HMap Nat (Slab (K × Nat))
  relation_1 : HMap (Nat × K) (Slab Nat)

namespace ECS

variable {C K : Type} [DecidableEq K]

/-- `ECS::new` / `Default::default`. -/
def new : ECS C K := ⟨Slab.new, HMap.empty, HMap.empty, HMap.empty⟩

/-- `ECS::insert_entity`. -/
def insert_entity (s : ECS C K) : Nat × ECS C K :=
  ((s.entities.insert ()).1, { s with entities := (s.entities.insert ()).2 })

/-- `ECS::get_entity`. -/
def get_entity (s : ECS C K) (e : Nat) : Option Unit :=
  (s.entities.get e).map fun _ => ()

/-- `ECS::iter_entity`. -/
def iter_entity (s : ECS C K) : List Nat := s.entities.iter.map Prod.fst

/-- One iteration of the `for (_, (kind_key, slab_key)) in relation_0` loop in
`ECS::remove_entity`.  A result of `none` is a failing `.check()`, i.e. a
panic of the Rust code. -/
def remove_entity_step (e : Nat) (st : ECS C K) (p : Nat × (K × Nat)) :
    Option (ECS C K) :=
  match st.comp_metas p.2.1 with
  | none => none
  | some cms =>
    match cms.try_remove p.2.2 with
    | none => none
    | some (meta, cms') =>
      let st1 : ECS C K := { st with comp_metas := st.comp_metas.ins p.2.1 cms' }
      match st1.relation_1 (e, p.2.1) with
      | none => none
      | some r1 =>
        match r1.try_remove meta.relation_1 with
        | none => none
        | some (_, r1') =>
          some { st1 with relation_1 := st1.relation_1.ins (e, p.2.1) r1' }

/-- The `remove_entity` directory loop, over the drained `relation_0` slab. -/
def remove_entity_loop (e : Nat) : ECS C K → List (Nat × (K × Nat)) → Option (ECS C K)
  | st, [] => some st
  | st, p :: rest =>
    match remove_entity_step e st p with
    | none => none
    | some st' => remove_entity_loop e st' rest

/-- `ECS::remove_entity`.  The outer `none` is a panic of an internal
`.check()`; `some (none, _)` is the `None` ("entity not found") return with the
store untouched; `some (some (), _)` is the successful return. -/
def remove_entity (s : ECS C K) (e : Nat) : Option (Option Unit × ECS C K) :=
  match s.entities.try_remove e with
  | none => some (none, s)
  | some (_, ents) =>
    match s.relation_0 e with
    | none => some (some (), { s with entities := ents })
    | some r0 =>
      let init : ECS C K :=
        { s with entities := ents, relation_0 := s.relation_0.del e }
      match remove_entity_loop e init r0.iter with
      | none => none
      | some st => some (some (), st)

/-- `ECS::insert_comp` (parameterised by the `K : for<'a> From<&'a C>`
conversion `kindOf`).  Returns the component key and the new store; on a stale
entity key it returns `none` with the store untouched. -/
def insert_comp (kindOf : C → K) (s : ECS C K) (e : Nat) (c : C) :
    Option (K × Nat) × ECS C K :=
  match s.entities.get e with
  | none => (none, s)
  | some _ =>
    let kk := kindOf c
    let cm := (s.comp_metas kk).getD Slab.new
    let slab_key := cm.vacant_key
    let r0 := ((s.relation_0 e).getD Slab.new).insert (kk, slab_key)
    let r1 := ((s.relation_1 (e, kk)).getD Slab.new).insert slab_key
    let meta : CompMeta C := ⟨c, e, r0.1, r1.1⟩
    (some (kk, slab_key),
      { entities := s.entities
        comp_metas := s.comp_metas.ins kk (cm.insert meta).2
        relation_0 := s.relation_0.ins e r0.2
        relation_1 := s.relation_1.ins (e, kk) r1.2 })

/-- `ECS::remove_comp`.  The outer `none` is a panic of an internal
`.check()`; `some (none, _)` is the `None` ("component not found") return. -/
def remove_comp (s : ECS C K) (ck : K × Nat) : Option (Option C × ECS C K) :=
  match s.comp_metas ck.1 with
  | none => some (none, s)
  | some cms =>
    match cms.try_remove ck.2 with
    | none => some (none, s)
    | some (meta, cms') =>
      match s.relation_0 meta.entity_key with
      | none => none
      | some r0 =>
        match r0.try_remove meta.relation_0 with
        | none => none
        | some (_, r0') =>
          match s.relation_1 (meta.entity_key, ck.1) with
          | none => none
          | some r1 =>
            match r1.try_remove meta.relation_1 with
            | none => none
            | some (_, r1') =>
              some (some meta.inner,
                { entities := s.entities
                  comp_metas := s.comp_metas.ins ck.1 cms'
                  relation_0 := s.relation_0.ins meta.entity_key r0'
                  relation_1 := s.relation_1.ins (meta.entity_key, ck.1) r1' })

/-- `ECS::get_comp`. -/
def get_comp (s : ECS C K) (ck : K × Nat) : Option C :=
  match s.comp_metas ck.1 with
  | none => none
  | some cms => (cms.get ck.2).map CompMeta.inner

/-- Writing a value through the `&mut C` returned by `ECS::get_comp_mut`.
When the key is stale the store is unchanged (no reference is produced). -/
def write_comp (s : ECS C K) (ck : K × Nat) (c : C) : ECS C K :=
  match s.comp_metas ck.1 with
  | none => s
  | some cms =>
    match cms.get ck.2 with
    | none => s
    | some meta =>
      { s with comp_metas :=
          s.comp_metas.ins ck.1 (cms.update ck.2 { meta with inner := c }) }

/-- `ECS::iter_comp`: the list of component values of one kind in slab
(index) order, or `None` when no store for the kind exists. -/
def iter_comp (s : ECS C K) (kk : K) : Option (List C) :=
  (s.comp_metas kk).map fun cms => cms.iter.map fun p => p.2.inner

/-- A caller draining `ECS::iter_comp_mut(kind)` and writing `f slab_key old`
through each yielded `&mut C`; `none` mirrors the `None` return when the kind
has no store. -/
def iter_comp_mut_apply (s : ECS C K) (kk : K) (f : Nat → C → C) :
    Option (ECS C K) :=
  match s.comp_metas kk with
  | none => none
  | some cms =>
    let cms' := cms.modify_all fun sk meta => { meta with inner := f sk meta.inner }
    some { s with comp_metas := s.comp_metas.ins kk cms' }

/-- `ECS::get_entity_by_comp`. -/
def get_entity_by_comp (s : ECS C K) (ck : K × Nat) : Option Nat :=
  match s.comp_metas ck.1 with
  | none => none
  | some cms => (cms.get ck.2).map CompMeta.entity_key

/-- `ECS::iter_comp_by_entity`: the values of the components of entity `e`
and kind `kk`, in the order of the `relation_1` index slab.  An element that
is `none` is a failing `.check()` (a panic) at that position of the lazy
iterator. -/
def iter_comp_by_entity (s : ECS C K) (e : Nat) (kk : K) :
    Option (List (Option C)) :=
  match s.comp_metas kk with
  | none => none
  | some cms =>
    match s.relation_1 (e, kk) with
    | none => none
    | some r1 => some (r1.iter.map fun p => (cms.get p.2).map CompMeta.inner)

/-- The body of a caller draining `ECS::iter_comp_mut_by_entity`, writing
`f slab_key old` through each yielded `&mut C`; `none` is a failing
`.check()` (a panic). -/
def mut_by_entity_loop (kk : K) (f : Nat → C → C) :
    ECS C K → List Nat → Option (ECS C K)
  | st, [] => some st
  | st, sk :: rest =>
    match st.comp_metas kk with
    | none => none
    | some cms =>
      match cms.get sk with
      | none => none
      | some meta =>
        mut_by_entity_loop kk f
          { st with comp_metas :=
              st.comp_metas.ins kk (cms.update sk { meta with inner := f sk meta.inner }) }
          rest

/-- `ECS::iter_comp_mut_by_entity`, drained by a caller that writes
`f slab_key old` through each yielded `&mut C`.  The outer `none` is a
panic of a `.check()`; `some none` is the `None` return (kind unregistered or
no `relation_1` entry); `some (some _)` is the resulting store. -/
def iter_comp_mut_by_entity_apply (s : ECS C K) (e : Nat) (kk : K)
    (f : Nat → C → C) : Option (Option (ECS C K)) :=
  match s.comp_metas kk with
  | none => some none
  | some _ =>
    match s.relation_1 (e, kk) with
    | none => some none
    | some r1 =>
      match mut_by_entity_loop kk f s (r1.iter.map Prod.snd) with
      | none => none
      | some st => some (some st)

/-- `ECS::clear`: every field is reset to its empty state. -/
def clear (_s : ECS C K) : ECS C K :=
  ⟨Slab.new, HMap.empty, HMap.empty, HMap.empty⟩

/-- The component record stored for component key `(kk, sk)`, if any. -/
def meta_at (s : ECS C K) (kk : K) (sk : Nat) : Option (CompMeta C) :=
  match s.comp_metas kk with
  | none => none
  | some cms => cms.get sk

theorem meta_at_eq_some {s : ECS C K} {kk : K} {sk : Nat} {meta : CompMeta C} :
    s.meta_at kk sk = some meta ↔
      ∃ cms, s.comp_metas kk = some cms ∧ cms.get sk = some meta := by
  unfold meta_at
  cases h : s.comp_metas kk with
  | none => simp
  | some cms => simp

theorem get_comp_eq (s : ECS C K) (ck : K × Nat) :
    s.get_comp ck = (s.meta_at ck.1 ck.2).map CompMeta.inner := by
  unfold get_comp meta_at
  cases h : s.comp_metas ck.1 <;> rfl

theorem get_entity_by_comp_eq (s : ECS C K) (ck : K × Nat) :
    s.get_entity_by_comp ck = (s.meta_at ck.1 ck.2).map CompMeta.entity_key := by
  unfold get_entity_by_comp meta_at
  cases h : s.comp_metas ck.1 <;> rfl

/-- The invariants of the store, satisfied by every reachable state:
well-formedness of every slab, the spec's I1 (`i1`), I2 (`i2a`, `i2b`), and
the converse directions (`j0`, `j1`): every association-slab entry points back
at a live component record that records the entry's own slot. -/
structure Inv (s : ECS C K) : Prop where
  wf_entities : s.entities.WF
  wf_comp : ∀ kk cms, s.comp_metas kk = some cms → cms.WF
  wf_r0 : ∀ e r0, s.relation_0 e = some r0 → r0.WF
  wf_r1 : ∀ ek r1, s.relation_1 ek = some r1 → r1.WF
  r1_dom : ∀ e kk r1, s.relation_1 (e, kk) = some r1 → (s.comp_metas kk).isSome
  i1 : ∀ kk sk meta, s.meta_at kk sk = some meta →
        s.entities.get meta.entity_key = some ()
  i2a : ∀ kk sk meta, s.meta_at kk sk = some meta →
        ∃ r0, s.relation_0 meta.entity_key = some r0 ∧
          r0.get meta.relation_0 = some (kk, sk)
  i2b : ∀ kk sk meta, s.meta_at kk sk = some meta →
        ∃ r1, s.relation_1 (meta.entity_key, kk) = some r1 ∧
          r1.get meta.relation_1 = some sk
  j0 : ∀ e r0 j kk sk, s.relation_0 e = some r0 → r0.get j = some (kk, sk) →
        ∃ meta, s.meta_at kk sk = some meta ∧ meta.entity_key = e ∧
          meta.relation_0 = j
  j1 : ∀ e kk r1 j sk, s.relation_1 (e, kk) = some r1 → r1.get j = some sk →
        ∃ meta, s.meta_at kk sk = some meta ∧ meta.entity_key = e ∧
          meta.relation_1 = j

theorem inv_new : Inv (new : ECS C K) := by
  constructor <;> intros <;> simp_all [new, HMap.empty, meta_at, Slab.wf_new]

theorem inv_clear (s : ECS C K) : Inv (clear s) := by
  constructor <;> intros <;> simp_all [clear, HMap.empty, meta_at, Slab.wf_new]

theorem inv_insert_entity {s : ECS C K} (h : Inv s) : Inv (s.insert_entity).2 := by
  have hspec := Slab.insert_spec h.wf_entities ()
  refine ⟨hspec.2.2.2, h.wf_comp, h.wf_r0, h.wf_r1, h.r1_dom, ?_, h.i2a, h.i2b,
    h.j0, h.j1⟩
  intro kk sk meta hm
  have hold := h.i1 kk sk meta hm
  have hne : meta.entity_key ≠ s.entities.next := by
    intro hEq
    rw [hEq, Slab.get_next_none h.wf_entities] at hold
    exact Option.noConfusion hold
  show (s.entities.insert ()).2.get meta.entity_key = some ()
  rw [hspec.2.2.1 _ hne]
  exact hold

/-- Two component-record options that agree except possibly in the stored
component value. -/
def MetaShape : Option (CompMeta C) → Option (CompMeta C) → Prop
  | none, none => True
  | some m', some m =>
      m'.entity_key = m.entity_key ∧ m'.relation_0 = m.relation_0 ∧
        m'.relation_1 = m.relation_1
  | _, _ => False

theorem metaShape_refl (o : Option (CompMeta C)) : MetaShape o o := by
  cases o with
  | none => trivial
  | some m => exact ⟨rfl, rfl, rfl⟩

/-- A state change that touches only the `inner` values of component records
(and no other field of the store) preserves the invariant. -/
theorem inv_of_inner_change {s s' : ECS C K}
    (hent : s'.entities = s.entities)
    (hr0 : s'.relation_0 = s.relation_0)
    (hr1 : s'.relation_1 = s.relation_1)
    (hwf : ∀ kk cms', s'.comp_metas kk = some cms' → cms'.WF)
    (hdom : ∀ kk, (s'.comp_metas kk).isSome = (s.comp_metas kk).isSome)
    (hms : ∀ kk sk, MetaShape (s'.meta_at kk sk) (s.meta_at kk sk))
    (h : Inv s) : Inv s' := by
  have hsome : ∀ kk sk meta', s'.meta_at kk sk = some meta' →
      ∃ meta, s.meta_at kk sk = some meta ∧ meta'.entity_key = meta.entity_key ∧
        meta'.relation_0 = meta.relation_0 ∧ meta'.relation_1 = meta.relation_1 := by
    intro kk sk meta' hm
    have hshape := hms kk sk
    rw [hm] at hshape
    cases ho : s.meta_at kk sk with
    | none => rw [ho] at hshape; exact absurd hshape (by simp [MetaShape])
    | some meta =>
      rw [ho] at hshape
      exact ⟨meta, rfl, hshape.1, hshape.2.1, hshape.2.2⟩
  have hsome' : ∀ kk sk meta, s.meta_at kk sk = some meta →
      ∃ meta', s'.meta_at kk sk = some meta' ∧ meta'.entity_key = meta.entity_key ∧
        meta'.relation_0 = meta.relation_0 ∧ meta'.relation_1 = meta.relation_1 := by
    intro kk sk meta hm
    have hshape := hms kk sk
    rw [hm] at hshape
    cases ho : s'.meta_at kk sk with
    | none => rw [ho] at hshape; exact absurd hshape (by simp [MetaShape])
    | some meta' =>
      rw [ho] at hshape
      exact ⟨meta', rfl, hshape.1, hshape.2.1, hshape.2.2⟩
  constructor
  case wf_entities => rw [hent]; exact h.wf_entities
  case wf_comp => exact hwf
  case wf_r0 => intro e r0 hrr; exact h.wf_r0 e r0 (by rw [← hr0]; exact hrr)
  case wf_r1 => intro ek r1 hrr; exact h.wf_r1 ek r1 (by rw [← hr1]; exact hrr)
  case r1_dom =>
    intro e kk r1 hrr
    rw [hr1] at hrr
    rw [hdom kk]
    exact h.r1_dom e kk r1 hrr
  case i1 =>
    intro kk sk meta' hm'
    obtain ⟨meta, hm, he, -, -⟩ := hsome kk sk meta' hm'
    rw [hent, he]
    exact h.i1 kk sk meta hm
  case i2a =>
    intro kk sk meta' hm'
    obtain ⟨meta, hm, he, hrel0, -⟩ := hsome kk sk meta' hm'
    rw [hr0, he, hrel0]
    exact h.i2a kk sk meta hm
  case i2b =>
    intro kk sk meta' hm'
    obtain ⟨meta, hm, he, -, hrel1⟩ := hsome kk sk meta' hm'
    rw [hr1, he, hrel1]
    exact h.i2b kk sk meta hm
  case j0 =>
    intro e r0 j kk sk hrr hg
    rw [hr0] at hrr
    obtain ⟨meta, hm, hme, hmr⟩ := h.j0 e r0 j kk sk hrr hg
    obtain ⟨meta', hm', he', hrel0', -⟩ := hsome' kk sk meta hm
    exact ⟨meta', hm', by rw [he', hme], by rw [hrel0', hmr]⟩
  case j1 =>
    intro e kk r1 j sk hrr hg
    rw [hr1] at hrr
    obtain ⟨meta, hm, hme, hmr⟩ := h.j1 e kk r1 j sk hrr hg
    obtain ⟨meta', hm', he', -, hrel1'⟩ := hsome' kk sk meta hm
    exact ⟨meta', hm', by rw [he', hme], by rw [hrel1', hmr]⟩

/-- A state whose fields are those of `s` with one component slab replaced.
All the record-literal bookkeeping for such a state is proved here once. -/
def with_comp (s : ECS C K) (kk : K) (cms : Slab (CompMeta C)) : ECS C K :=
  { s with comp_metas := s.comp_metas.ins kk cms }

theorem with_comp_entities (s : ECS C K) (kk : K) (cms : Slab (CompMeta C)) :
    (s.with_comp kk cms).entities = s.entities := rfl

theorem with_comp_relation_0 (s : ECS C K) (kk : K) (cms : Slab (CompMeta C)) :
    (s.with_comp kk cms).relation_0 = s.relation_0 := rfl

theorem with_comp_relation_1 (s : ECS C K) (kk : K) (cms : Slab (CompMeta C)) :
    (s.with_comp kk cms).relation_1 = s.relation_1 := rfl

theorem with_comp_self (s : ECS C K) (kk : K) (cms : Slab (CompMeta C)) :
    (s.with_comp kk cms).comp_metas kk = some cms := HMap.ins_self ..

theorem with_comp_ne (s : ECS C K) (kk : K) (cms : Slab (CompMeta C))
    (kk' : K) (h : kk' ≠ kk) :
    (s.with_comp kk cms).comp_metas kk' = s.comp_metas kk' := HMap.ins_ne _ _ _ _ h

theorem with_comp_meta_at_self (s : ECS C K) (kk : K) (cms : Slab (CompMeta C))
    (sk : Nat) : (s.with_comp kk cms).meta_at kk sk = cms.get sk := by
  unfold meta_at
  rw [with_comp_self]

theorem with_comp_meta_at_ne (s : ECS C K) (kk : K) (cms : Slab (CompMeta C))
    (kk' : K) (h : kk' ≠ kk) (sk : Nat) :
    (s.with_comp kk cms).meta_at kk' sk = s.meta_at kk' sk := by
  unfold meta_at
  rw [with_comp_ne _ _ _ _ h]

theorem with_comp_dom (s : ECS C K) (kk : K) (cms : Slab (CompMeta C))
    (hkk : (s.comp_metas kk).isSome) (kk' : K) :
    ((s.with_comp kk cms).comp_metas kk').isSome = (s.comp_metas kk').isSome := by
  by_cases h : kk' = kk
  · subst h
    rw [with_comp_self, hkk]
    rfl
  · rw [with_comp_ne _ _ _ _ h]

/-- An invariant-preservation helper for states of the form `with_comp`
where the new slab changes only `inner` values of the old one. -/
theorem inv_with_comp_inner {s : ECS C K} (h : Inv s) {kk : K}
    {cms cms' : Slab (CompMeta C)} (hc : s.comp_metas kk = some cms)
    (hwf : cms'.WF)
    (hms : ∀ sk, MetaShape (cms'.get sk) (cms.get sk)) :
    Inv (s.with_comp kk cms') := by
  refine inv_of_inner_change (with_comp_entities ..) (with_comp_relation_0 ..)
    (with_comp_relation_1 ..) ?_ (with_comp_dom _ _ _ (by rw [hc]; rfl)) ?_ h
  · intro kk2 cms2 hm
    by_cases hkk : kk2 = kk
    · subst hkk
      rw [with_comp_self] at hm
      cases hm
      exact hwf
    · rw [with_comp_ne _ _ _ _ hkk] at hm
      exact h.wf_comp _ _ hm
  · intro kk2 sk
    by_cases hkk : kk2 = kk
    · subst hkk
      rw [with_comp_meta_at_self]
      have hsm : s.meta_at kk2 sk = cms.get sk := by
        unfold meta_at
        rw [hc]
      rw [hsm]
      exact hms sk
    · rw [with_comp_meta_at_ne _ _ _ _ hkk]
      exact metaShape_refl _

theorem inv_write_comp {s : ECS C K} (h : Inv s) (ck : K × Nat) (c : C) :
    Inv (s.write_comp ck c) := by
  cases hc : s.comp_metas ck.1 with
  | none =>
    have heq : s.write_comp ck c = s := by
      unfold write_comp
      rw [hc]
    rw [heq]
    exact h
  | some cms =>
    cases hg : cms.get ck.2 with
    | none =>
      have heq : s.write_comp ck c = s := by
        simp only [write_comp, hc, hg]
      rw [heq]
      exact h
    | some meta =>
      have heq : s.write_comp ck c =
          s.with_comp ck.1 (cms.update ck.2 { meta with inner := c }) := by
        simp only [write_comp, with_comp, hc, hg]
      rw [heq]
      refine inv_with_comp_inner h hc (Slab.update_wf (h.wf_comp _ _ hc) hg _) ?_
      intro sk
      by_cases hsk : sk = ck.2
      · subst hsk
        rw [Slab.update_get_self hg, hg]
        exact ⟨rfl, rfl, rfl⟩
      · rw [Slab.update_get_ne _ _ _ _ hsk]
        exact metaShape_refl _

theorem inv_iter_comp_mut_apply {s : ECS C K} (h : Inv s) {kk : K}
    {f : Nat → C → C} {s' : ECS C K}
    (hap : s.iter_comp_mut_apply kk f = some s') : Inv s' := by
  unfold iter_comp_mut_apply at hap
  cases hc : s.comp_metas kk with
  | none => rw [hc] at hap; exact absurd hap (by simp)
  | some cms =>
    rw [hc] at hap
    injection hap with hap
    rw [← hap]
    show Inv (s.with_comp kk
      (cms.modify_all fun sk meta => { meta with inner := f sk meta.inner }))
    refine inv_with_comp_inner h hc (Slab.modify_all_wf _ (h.wf_comp _ _ hc)) ?_
    intro sk
    rw [Slab.modify_all_get]
    cases cms.get sk with
    | none => exact trivial
    | some m => exact ⟨rfl, rfl, rfl⟩

theorem inv_insert_comp (kindOf : C → K) {s : ECS C K} (h : Inv s) (e : Nat) (c : C) :
    Inv (insert_comp kindOf s e c).2 := by
  cases he : s.entities.get e with
  | none =>
    have heq : (insert_comp kindOf s e c).2 = s := by
      simp only [insert_comp, he]
    rw [heq]
    exact h
  | some u =>
    cases u
    simp only [insert_comp, he]
    generalize hkk : kindOf c = kk0
    generalize hcm : (s.comp_metas kk0).getD Slab.new = cm
    generalize hsk : cm.vacant_key = sk0
    generalize hr0s : (s.relation_0 e).getD Slab.new = r0s
    generalize hr1s : (s.relation_1 (e, kk0)).getD Slab.new = r1s
    generalize hr0i : r0s.insert (kk0, sk0) = r0i
    generalize hr1i : r1s.insert sk0 = r1i
    generalize hcmi : cm.insert ⟨c, e, r0i.1, r1i.1⟩ = cmi
    have hcmwf : cm.WF := by
      rw [← hcm]
      exact Slab.wf_getD (h.wf_comp kk0)
    have hr0wf : r0s.WF := by
      rw [← hr0s]
      exact Slab.wf_getD (h.wf_r0 e)
    have hr1wf : r1s.WF := by
      rw [← hr1s]
      exact Slab.wf_getD (h.wf_r1 (e, kk0))
    have hsk' : cm.next = sk0 := hsk
    have hcmS := Slab.insert_spec hcmwf (⟨c, e, r0i.1, r1i.1⟩ : CompMeta C)
    rw [hcmi, hsk'] at hcmS
    have hr0S := Slab.insert_spec hr0wf (kk0, sk0)
    rw [hr0i] at hr0S
    have hr1S := Slab.insert_spec hr1wf sk0
    rw [hr1i] at hr1S
    have hcm_fresh : cm.get sk0 = none := by
      rw [← hsk']
      exact Slab.get_next_none hcmwf
    have hr0_fresh : r0s.get r0s.next = none := Slab.get_next_none hr0wf
    have hr1_fresh : r1s.get r1s.next = none := Slab.get_next_none hr1wf
    have hcm_get : ∀ sk, cm.get sk = s.meta_at kk0 sk := by
      intro sk
      rw [← hcm]
      unfold meta_at
      cases s.comp_metas kk0 with
      | none => simp [Slab.new_get]
      | some cms => simp
    have hr0cases : s.relation_0 e = some r0s ∨
        (s.relation_0 e = none ∧ r0s = Slab.new) := by
      rw [← hr0s]
      cases s.relation_0 e with
      | none => exact Or.inr ⟨rfl, rfl⟩
      | some r0 => exact Or.inl rfl
    have hr1cases : s.relation_1 (e, kk0) = some r1s ∨
        (s.relation_1 (e, kk0) = none ∧ r1s = Slab.new) := by
      rw [← hr1s]
      cases s.relation_1 (e, kk0) with
      | none => exact Or.inr ⟨rfl, rfl⟩
      | some r1 => exact Or.inl rfl
    have hM : ∀ kk sk,
        (⟨s.entities, s.comp_metas.ins kk0 cmi.2, s.relation_0.ins e r0i.2,
          s.relation_1.ins (e, kk0) r1i.2⟩ : ECS C K).meta_at kk sk =
        (if kk = kk0 then cmi.2.get sk else s.meta_at kk sk) := by
      intro kk sk
      by_cases hkk2 : kk = kk0
      · subst hkk2
        rw [if_pos rfl]
        show (match s.comp_metas.ins kk cmi.2 kk with
              | none => none
              | some cms => cms.get sk) = cmi.2.get sk
        rw [HMap.ins_self]
      · rw [if_neg hkk2]
        show (match s.comp_metas.ins kk0 cmi.2 kk with
              | none => none
              | some cms => cms.get sk) = s.meta_at kk sk
        rw [HMap.ins_ne _ _ _ _ hkk2]
        rfl
    have hMnew :
        (⟨s.entities, s.comp_metas.ins kk0 cmi.2, s.relation_0.ins e r0i.2,
          s.relation_1.ins (e, kk0) r1i.2⟩ : ECS C K).meta_at kk0 sk0 =
        some ⟨c, e, r0i.1, r1i.1⟩ := by
      rw [hM, if_pos rfl]
      exact hcmS.2.1
    have hkeep : ∀ kk sk meta2, s.meta_at kk sk = some meta2 →
        (⟨s.entities, s.comp_metas.ins kk0 cmi.2, s.relation_0.ins e r0i.2,
          s.relation_1.ins (e, kk0) r1i.2⟩ : ECS C K).meta_at kk sk = some meta2 := by
      intro kk sk meta2 hm2
      rw [hM kk sk]
      by_cases hkk2 : kk = kk0
      · subst hkk2
        rw [if_pos rfl]
        by_cases hsk2 : sk = sk0
        · subst hsk2
          rw [← hcm_get sk, hcm_fresh] at hm2
          exact Option.noConfusion hm2
        · rw [hcmS.2.2.1 sk hsk2, hcm_get sk]
          exact hm2
      · rw [if_neg hkk2]
        exact hm2
    have hlift0 : ∀ e2 r0 j t, s.relation_0 e2 = some r0 → r0.get j = some t →
        ∃ r0', s.relation_0.ins e r0i.2 e2 = some r0' ∧ r0'.get j = some t := by
      intro e2 r0 j t hr0 hg0
      by_cases hee : e2 = e
      · subst hee
        rcases hr0cases with hc0 | ⟨hc0, -⟩
        · rw [hc0] at hr0
          injection hr0 with hr0
          subst hr0
          have hne2 : j ≠ r0s.next := by
            intro hEq
            rw [hEq, hr0_fresh] at hg0
            exact Option.noConfusion hg0
          exact ⟨r0i.2, HMap.ins_self .., by rw [hr0S.2.2.1 _ hne2]; exact hg0⟩
        · rw [hc0] at hr0
          exact Option.noConfusion hr0
      · exact ⟨r0, by rw [HMap.ins_ne _ _ _ _ hee]; exact hr0, hg0⟩
    have hlift1 : ∀ ek r1 j t, s.relation_1 ek = some r1 → r1.get j = some t →
        ∃ r1', s.relation_1.ins (e, kk0) r1i.2 ek = some r1' ∧ r1'.get j = some t := by
      intro ek r1 j t hr1 hg1
      by_cases hek : ek = (e, kk0)
      · subst hek
        rcases hr1cases with hc1 | ⟨hc1, -⟩
        · rw [hc1] at hr1
          injection hr1 with hr1
          subst hr1
          have hne2 : j ≠ r1s.next := by
            intro hEq
            rw [hEq, hr1_fresh] at hg1
            exact Option.noConfusion hg1
          exact ⟨r1i.2, HMap.ins_self .., by rw [hr1S.2.2.1 _ hne2]; exact hg1⟩
        · rw [hc1] at hr1
          exact Option.noConfusion hr1
      · exact ⟨r1, by rw [HMap.ins_ne _ _ _ _ hek]; exact hr1, hg1⟩
    refine ⟨?_, ?_, ?_, ?_, ?_, ?_, ?_, ?_, ?_, ?_⟩
    · exact h.wf_entities
    · intro kk cms hm
      have hm' : s.comp_metas.ins kk0 cmi.2 kk = some cms := hm
      by_cases hkk2 : kk = kk0
      · subst hkk2
        rw [HMap.ins_self] at hm'
        cases hm'
        exact hcmS.2.2.2
      · rw [HMap.ins_ne _ _ _ _ hkk2] at hm'
        exact h.wf_comp _ _ hm'
    · intro e2 r0 hm
      have hm' : s.relation_0.ins e r0i.2 e2 = some r0 := hm
      by_cases hee : e2 = e
      · subst hee
        rw [HMap.ins_self] at hm'
        cases hm'
        exact hr0S.2.2.2
      · rw [HMap.ins_ne _ _ _ _ hee] at hm'
        exact h.wf_r0 _ _ hm'
    · intro ek r1 hm
      have hm' : s.relation_1.ins (e, kk0) r1i.2 ek = some r1 := hm
      by_cases hek : ek = (e, kk0)
      · subst hek
        rw [HMap.ins_self] at hm'
        cases hm'
        exact hr1S.2.2.2
      · rw [HMap.ins_ne _ _ _ _ hek] at hm'
        exact h.wf_r1 _ _ hm'
    · intro e2 kk r1 hrr
      have hrr' : s.relation_1.ins (e, kk0) r1i.2 (e2, kk) = some r1 := hrr
      show (s.comp_metas.ins kk0 cmi.2 kk).isSome = true
      by_cases hkk2 : kk = kk0
      · subst hkk2
        rw [HMap.ins_self]
        rfl
      · rw [HMap.ins_ne _ _ _ _ hkk2]
        by_cases hek : ((e2, kk) : Nat × K) = (e, kk0)
        · rw [Prod.mk.injEq] at hek
          exact absurd hek.2 hkk2
        · rw [HMap.ins_ne _ _ _ _ hek] at hrr'
          exact h.r1_dom e2 kk r1 hrr'
    · intro kk sk meta2 hm
      rw [hM kk sk] at hm
      show s.entities.get meta2.entity_key = some ()
      by_cases hkk2 : kk = kk0
      · subst hkk2
        rw [if_pos rfl] at hm
        by_cases hsk2 : sk = sk0
        · subst hsk2
          rw [hcmS.2.1] at hm
          cases hm
          exact he
        · rw [hcmS.2.2.1 sk hsk2, hcm_get sk] at hm
          exact h.i1 kk sk meta2 hm
      · rw [if_neg hkk2] at hm
        exact h.i1 kk sk meta2 hm
    · intro kk sk meta2 hm
      rw [hM kk sk] at hm
      by_cases hkk2 : kk = kk0
      · subst hkk2
        rw [if_pos rfl] at hm
        by_cases hsk2 : sk = sk0
        · subst hsk2
          rw [hcmS.2.1] at hm
          cases hm
          refine ⟨r0i.2, HMap.ins_self .., ?_⟩
          show r0i.2.get r0i.1 = some (kk, sk)
          rw [hr0S.1]
          exact hr0S.2.1
        · rw [hcmS.2.2.1 sk hsk2, hcm_get sk] at hm
          obtain ⟨r0, hr0, hg0⟩ := h.i2a kk sk meta2 hm
          obtain ⟨r0', hr0', hg0'⟩ := hlift0 _ _ _ _ hr0 hg0
          exact ⟨r0', hr0', hg0'⟩
      · rw [if_neg hkk2] at hm
        obtain ⟨r0, hr0, hg0⟩ := h.i2a kk sk meta2 hm
        obtain ⟨r0', hr0', hg0'⟩ := hlift0 _ _ _ _ hr0 hg0
        exact ⟨r0', hr0', hg0'⟩
    · intro kk sk meta2 hm
      rw [hM kk sk] at hm
      by_cases hkk2 : kk = kk0
      · subst hkk2
        rw [if_pos rfl] at hm
        by_cases hsk2 : sk = sk0
        · subst hsk2
          rw [hcmS.2.1] at hm
          cases hm
          refine ⟨r1i.2, HMap.ins_self .., ?_⟩
          show r1i.2.get r1i.1 = some sk
          rw [hr1S.1]
          exact hr1S.2.1
        · rw [hcmS.2.2.1 sk hsk2, hcm_get sk] at hm
          obtain ⟨r1, hr1, hg1⟩ := h.i2b kk sk meta2 hm
          obtain ⟨r1', hr1', hg1'⟩ := hlift1 _ _ _ _ hr1 hg1
          exact ⟨r1', hr1', hg1'⟩
      · rw [if_neg hkk2] at hm
        obtain ⟨r1, hr1, hg1⟩ := h.i2b kk sk meta2 hm
        obtain ⟨r1', hr1', hg1'⟩ := hlift1 _ _ _ _ hr1 hg1
        exact ⟨r1', hr1', hg1'⟩
    · intro e2 r0' j kk sk hrr hg
      have hrr' : s.relation_0.ins e r0i.2 e2 = some r0' := hrr
      by_cases hee : e2 = e
      · subst hee
        rw [HMap.ins_self] at hrr'
        cases hrr'
        by_cases hj : j = r0s.next
        · subst hj
          rw [hr0S.2.1] at hg
          injection hg with hg
          rw [Prod.mk.injEq] at hg
          obtain ⟨hg1, hg2⟩ := hg
          subst hg1
          subst hg2
          refine ⟨⟨c, e2, r0i.1, r1i.1⟩, hMnew, rfl, ?_⟩
          show r0i.1 = r0s.next
          exact hr0S.1
        · rw [hr0S.2.2.1 _ hj] at hg
          rcases hr0cases with hc0 | ⟨-, hnew⟩
          · obtain ⟨meta2, hm2, hme2, hmr2⟩ := h.j0 e2 r0s j kk sk hc0 hg
            exact ⟨meta2, hkeep kk sk meta2 hm2, hme2, hmr2⟩
          · rw [hnew, Slab.new_get] at hg
            exact Option.noConfusion hg
      · rw [HMap.ins_ne _ _ _ _ hee] at hrr'
        obtain ⟨meta2, hm2, hme2, hmr2⟩ := h.j0 e2 r0' j kk sk hrr' hg
        exact ⟨meta2, hkeep kk sk meta2 hm2, hme2, hmr2⟩
    · intro e2 kk r1' j sk hrr hg
      have hrr' : s.relation_1.ins (e, kk0) r1i.2 (e2, kk) = some r1' := hrr
      by_cases hek : ((e2, kk) : Nat × K) = (e, kk0)
      · have hek2 := hek
        rw [Prod.mk.injEq] at hek2
        obtain ⟨hee, hkk2⟩ := hek2
        subst hee
        subst hkk2
        rw [HMap.ins_self] at hrr'
        cases hrr'
        by_cases hj : j = r1s.next
        · subst hj
          rw [hr1S.2.1] at hg
          injection hg with hg
          subst hg
          refine ⟨⟨c, e2, r0i.1, r1i.1⟩, hMnew, rfl, ?_⟩
          show r1i.1 = r1s.next
          exact hr1S.1
        · rw [hr1S.2.2.1 _ hj] at hg
          rcases hr1cases with hc1 | ⟨-, hnew⟩
          · obtain ⟨meta2, hm2, hme2, hmr2⟩ := h.j1 e2 kk r1s j sk hc1 hg
            exact ⟨meta2, hkeep kk sk meta2 hm2, hme2, hmr2⟩
          · rw [hnew, Slab.new_get] at hg
            exact Option.noConfusion hg
      · rw [HMap.ins_ne _ _ _ _ hek] at hrr'
        obtain ⟨meta2, hm2, hme2, hmr2⟩ := h.j1 e2 kk r1' j sk hrr' hg
        exact ⟨meta2, hkeep kk sk meta2 hm2, hme2, hmr2⟩

/-- On a store satisfying the invariant, once the component record itself has
been removed, both `.check()`ed association removals in `ECS::remove_comp`
succeed, and the result is fully determined. -/
theorem remove_comp_success {s : ECS C K} (h : Inv s) {ck : K × Nat}
    {cms cms' : Slab (CompMeta C)} {meta : CompMeta C}
    (hc : s.comp_metas ck.1 = some cms)
    (hrm : cms.try_remove ck.2 = some (meta, cms')) :
    ∃ r0 t0 r0' r1 t1 r1',
      s.relation_0 meta.entity_key = some r0 ∧
      r0.try_remove meta.relation_0 = some (t0, r0') ∧
      t0 = (ck.1, ck.2) ∧
      s.relation_1 (meta.entity_key, ck.1) = some r1 ∧
      r1.try_remove meta.relation_1 = some (t1, r1') ∧
      t1 = ck.2 ∧
      s.remove_comp ck = some (some meta.inner,
        ⟨s.entities, s.comp_metas.ins ck.1 cms',
         s.relation_0.ins meta.entity_key r0',
         s.relation_1.ins (meta.entity_key, ck.1) r1'⟩) := by
  have hg : cms.get ck.2 = some meta := Slab.get_of_try_remove hrm
  have hmeta : s.meta_at ck.1 ck.2 = some meta :=
    meta_at_eq_some.mpr ⟨cms, hc, hg⟩
  obtain ⟨r0, hr0, hg0⟩ := h.i2a ck.1 ck.2 meta hmeta
  obtain ⟨r1, hr1, hg1⟩ := h.i2b ck.1 ck.2 meta hmeta
  have htr0 := Slab.try_remove_of_get hg0
  have htr1 := Slab.try_remove_of_get hg1
  refine ⟨r0, _, _, r1, _, _, hr0, htr0, rfl, hr1, htr1, rfl, ?_⟩
  simp only [remove_comp, hc, hrm, hr0, htr0, hr1, htr1]

theorem inv_remove_comp {s : ECS C K} (h : Inv s) {ck : K × Nat}
    {r : Option C} {s' : ECS C K}
    (hrc : s.remove_comp ck = some (r, s')) : Inv s' := by
  cases hc : s.comp_metas ck.1 with
  | none =>
    simp only [remove_comp, hc] at hrc
    injection hrc with hrc
    injection hrc with hrc1 hrc2
    rw [← hrc2]
    exact h
  | some cms =>
    cases hrm : cms.try_remove ck.2 with
    | none =>
      simp only [remove_comp, hc, hrm] at hrc
      injection hrc with hrc
      injection hrc with hrc1 hrc2
      rw [← hrc2]
      exact h
    | some pr =>
      obtain ⟨meta, cms'⟩ := pr
      obtain ⟨r0, t0, r0', r1, t1, r1', hr0, htr0, ht0, hr1, htr1, ht1, hout⟩ :=
        remove_comp_success h hc hrm
      rw [hout] at hrc
      injection hrc with hrc
      injection hrc with hrc1 hrc2
      rw [← hrc2]
      clear hrc1 hrc2 hout
      -- facts about the removed pieces
      have hg : cms.get ck.2 = some meta := Slab.get_of_try_remove hrm
      have hmeta : s.meta_at ck.1 ck.2 = some meta :=
        meta_at_eq_some.mpr ⟨cms, hc, hg⟩
      have hg0 : r0.get meta.relation_0 = some (ck.1, ck.2) := by
        have := Slab.get_of_try_remove htr0
        rw [ht0] at this
        exact this
      have hg1 : r1.get meta.relation_1 = some ck.2 := by
        have := Slab.get_of_try_remove htr1
        rw [ht1] at this
        exact this
      have hcms'_self : cms'.get ck.2 = none := Slab.try_remove_get_self hrm
      have hcms'_ne : ∀ j, j ≠ ck.2 → cms'.get j = cms.get j :=
        fun j hj => Slab.try_remove_get_ne hrm j hj
      have hr0'_self : r0'.get meta.relation_0 = none := Slab.try_remove_get_self htr0
      have hr0'_ne : ∀ j, j ≠ meta.relation_0 → r0'.get j = r0.get j :=
        fun j hj => Slab.try_remove_get_ne htr0 j hj
      have hr1'_self : r1'.get meta.relation_1 = none := Slab.try_remove_get_self htr1
      have hr1'_ne : ∀ j, j ≠ meta.relation_1 → r1'.get j = r1.get j :=
        fun j hj => Slab.try_remove_get_ne htr1 j hj
      -- new meta_at characterisation
      have hM : ∀ kk sk,
          (⟨s.entities, s.comp_metas.ins ck.1 cms',
            s.relation_0.ins meta.entity_key r0',
            s.relation_1.ins (meta.entity_key, ck.1) r1'⟩ : ECS C K).meta_at kk sk =
          (if kk = ck.1 then cms'.get sk else s.meta_at kk sk) := by
        intro kk sk
        by_cases hkk : kk = ck.1
        · subst hkk
          rw [if_pos rfl]
          show (match s.comp_metas.ins ck.1 cms' ck.1 with
                | none => none
                | some c2 => c2.get sk) = cms'.get sk
          rw [HMap.ins_self]
        · rw [if_neg hkk]
          show (match s.comp_metas.ins ck.1 cms' kk with
                | none => none
                | some c2 => c2.get sk) = s.meta_at kk sk
          rw [HMap.ins_ne _ _ _ _ hkk]
          rfl
      have hsurv : ∀ kk sk meta2,
          (⟨s.entities, s.comp_metas.ins ck.1 cms',
            s.relation_0.ins meta.entity_key r0',
            s.relation_1.ins (meta.entity_key, ck.1) r1'⟩ : ECS C K).meta_at kk sk =
            some meta2 →
          s.meta_at kk sk = some meta2 ∧ ¬(kk = ck.1 ∧ sk = ck.2) := by
        intro kk sk meta2 hm
        rw [hM kk sk] at hm
        by_cases hkk : kk = ck.1
        · subst hkk
          rw [if_pos rfl] at hm
          by_cases hsk : sk = ck.2
          · subst hsk
            rw [hcms'_self] at hm
            exact Option.noConfusion hm
          · rw [hcms'_ne sk hsk] at hm
            refine ⟨meta_at_eq_some.mpr ⟨cms, hc, hm⟩, ?_⟩
            intro hand
            exact hsk hand.2
        · rw [if_neg hkk] at hm
          exact ⟨hm, fun hand => hkk hand.1⟩
      have hkeep2 : ∀ kk sk meta2, s.meta_at kk sk = some meta2 →
          ¬(kk = ck.1 ∧ sk = ck.2) →
          (⟨s.entities, s.comp_metas.ins ck.1 cms',
            s.relation_0.ins meta.entity_key r0',
            s.relation_1.ins (meta.entity_key, ck.1) r1'⟩ : ECS C K).meta_at kk sk =
            some meta2 := by
        intro kk sk meta2 hm hne
        rw [hM kk sk]
        by_cases hkk : kk = ck.1
        · subst hkk
          rw [if_pos rfl]
          have hsk : sk ≠ ck.2 := fun hEq => hne ⟨rfl, hEq⟩
          rw [hcms'_ne sk hsk]
          obtain ⟨cms2, hc2, hgg⟩ := meta_at_eq_some.mp hm
          rw [hc] at hc2
          injection hc2 with hc2
          rw [hc2]
          exact hgg
        · rw [if_neg hkk]
          exact hm
      -- distinctness of surviving back-references from the removed ones
      have hdist0 : ∀ kk sk meta2, s.meta_at kk sk = some meta2 →
          ¬(kk = ck.1 ∧ sk = ck.2) → meta2.entity_key = meta.entity_key →
          meta2.relation_0 ≠ meta.relation_0 := by
        intro kk sk meta2 hm hne hee hEq
        obtain ⟨r0b, hr0b, hg0b⟩ := h.i2a kk sk meta2 hm
        rw [hee, hr0] at hr0b
        injection hr0b with hr0b
        rw [← hr0b, hEq, hg0] at hg0b
        injection hg0b with hg0b
        rw [Prod.mk.injEq] at hg0b
        exact hne ⟨hg0b.1.symm, hg0b.2.symm⟩
      have hdist1 : ∀ kk sk meta2, s.meta_at kk sk = some meta2 →
          ¬(kk = ck.1 ∧ sk = ck.2) → meta2.entity_key = meta.entity_key →
          kk = ck.1 → meta2.relation_1 ≠ meta.relation_1 := by
        intro kk sk meta2 hm hne hee hkk hEq
        obtain ⟨r1b, hr1b, hg1b⟩ := h.i2b kk sk meta2 hm
        rw [hee, hkk, hr1] at hr1b
        injection hr1b with hr1b
        rw [← hr1b, hEq, hg1] at hg1b
        injection hg1b with hg1b
        exact hne ⟨hkk, hg1b.symm⟩
      refine ⟨?_, ?_, ?_, ?_, ?_, ?_, ?_, ?_, ?_, ?_⟩
      · exact h.wf_entities
      · intro kk cms2 hm
        have hm' : s.comp_metas.ins ck.1 cms' kk = some cms2 := hm
        by_cases hkk : kk = ck.1
        · subst hkk
          rw [HMap.ins_self] at hm'
          cases hm'
          exact Slab.try_remove_wf hrm (h.wf_comp _ _ hc)
        · rw [HMap.ins_ne _ _ _ _ hkk] at hm'
          exact h.wf_comp _ _ hm'
      · intro e2 r0b hm
        have hm' : s.relation_0.ins meta.entity_key r0' e2 = some r0b := hm
        by_cases hee : e2 = meta.entity_key
        · subst hee
          rw [HMap.ins_self] at hm'
          cases hm'
          exact Slab.try_remove_wf htr0 (h.wf_r0 _ _ hr0)
        · rw [HMap.ins_ne _ _ _ _ hee] at hm'
          exact h.wf_r0 _ _ hm'
      · intro ek r1b hm
        have hm' : s.relation_1.ins (meta.entity_key, ck.1) r1' ek = some r1b := hm
        by_cases hek : ek = (meta.entity_key, ck.1)
        · subst hek
          rw [HMap.ins_self] at hm'
          cases hm'
          exact Slab.try_remove_wf htr1 (h.wf_r1 _ _ hr1)
        · rw [HMap.ins_ne _ _ _ _ hek] at hm'
          exact h.wf_r1 _ _ hm'
      · intro e2 kk r1b hrr
        have hrr' : s.relation_1.ins (meta.entity_key, ck.1) r1' (e2, kk) = some r1b := hrr
        show (s.comp_metas.ins ck.1 cms' kk).isSome = true
        by_cases hkk : kk = ck.1
        · subst hkk
          rw [HMap.ins_self]
          rfl
        · rw [HMap.ins_ne _ _ _ _ hkk]
          by_cases hek : ((e2, kk) : Nat × K) = (meta.entity_key, ck.1)
          · rw [Prod.mk.injEq] at hek
            exact absurd hek.2 hkk
          · rw [HMap.ins_ne _ _ _ _ hek] at hrr'
            exact h.r1_dom e2 kk r1b hrr'
      · intro kk sk meta2 hm
        obtain ⟨hm2, -⟩ := hsurv kk sk meta2 hm
        exact h.i1 kk sk meta2 hm2
      · intro kk sk meta2 hm
        obtain ⟨hm2, hne⟩ := hsurv kk sk meta2 hm
        obtain ⟨r0b, hr0b, hg0b⟩ := h.i2a kk sk meta2 hm2
        by_cases hee : meta2.entity_key = meta.entity_key
        · rw [hee, hr0] at hr0b
          injection hr0b with hr0b
          subst hr0b
          refine ⟨r0', ?_, ?_⟩
          · show s.relation_0.ins meta.entity_key r0' meta2.entity_key = some r0'
            rw [hee]
            exact HMap.ins_self ..
          · rw [hr0'_ne _ (hdist0 kk sk meta2 hm2 hne hee)]
            exact hg0b
        · refine ⟨r0b, ?_, hg0b⟩
          show s.relation_0.ins meta.entity_key r0' meta2.entity_key = some r0b
          rw [HMap.ins_ne _ _ _ _ hee]
          exact hr0b
      · intro kk sk meta2 hm
        obtain ⟨hm2, hne⟩ := hsurv kk sk meta2 hm
        obtain ⟨r1b, hr1b, hg1b⟩ := h.i2b kk sk meta2 hm2
        by_cases hek : ((meta2.entity_key, kk) : Nat × K) = (meta.entity_key, ck.1)
        · have hek2 := hek
          rw [Prod.mk.injEq] at hek2
          rw [hek2.1, hek2.2, hr1] at hr1b
          injection hr1b with hr1b
          subst hr1b
          refine ⟨r1', ?_, ?_⟩
          · show s.relation_1.ins (meta.entity_key, ck.1) r1' (meta2.entity_key, kk) =
              some r1'
            rw [hek]
            exact HMap.ins_self ..
          · rw [hr1'_ne _ (hdist1 kk sk meta2 hm2 hne hek2.1 hek2.2)]
            exact hg1b
        · refine ⟨r1b, ?_, hg1b⟩
          show s.relation_1.ins (meta.entity_key, ck.1) r1' (meta2.entity_key, kk) =
            some r1b
          rw [HMap.ins_ne _ _ _ _ hek]
          exact hr1b
      · intro e2 r0b j kk sk hrr hg2
        have hrr' : s.relation_0.ins meta.entity_key r0' e2 = some r0b := hrr
        by_cases hee : e2 = meta.entity_key
        · subst hee
          rw [HMap.ins_self] at hrr'
          cases hrr'
          have hjne : j ≠ meta.relation_0 := by
            intro hEq
            rw [hEq, hr0'_self] at hg2
            exact Option.noConfusion hg2
          rw [hr0'_ne j hjne] at hg2
          obtain ⟨meta2, hm2, hme2, hmr2⟩ := h.j0 meta.entity_key r0 j kk sk hr0 hg2
          have hne : ¬(kk = ck.1 ∧ sk = ck.2) := by
            intro hand
            rw [hand.1, hand.2, hmeta] at hm2
            injection hm2 with hm2
            rw [← hm2] at hmr2
            exact hjne hmr2.symm
          exact ⟨meta2, hkeep2 kk sk meta2 hm2 hne, hme2, hmr2⟩
        · rw [HMap.ins_ne _ _ _ _ hee] at hrr'
          obtain ⟨meta2, hm2, hme2, hmr2⟩ := h.j0 e2 r0b j kk sk hrr' hg2
          have hne : ¬(kk = ck.1 ∧ sk = ck.2) := by
            intro hand
            rw [hand.1, hand.2, hmeta] at hm2
            injection hm2 with hm2
            rw [← hm2] at hme2
            exact hee hme2.symm
          exact ⟨meta2, hkeep2 kk sk meta2 hm2 hne, hme2, hmr2⟩
      · intro e2 kk r1b j sk hrr hg2
        have hrr' : s.relation_1.ins (meta.entity_key, ck.1) r1' (e2, kk) = some r1b := hrr
        by_cases hek : ((e2, kk) : Nat × K) = (meta.entity_key, ck.1)
        · rw [hek] at hrr'
          rw [HMap.ins_self] at hrr'
          cases hrr'
          have hek2 := hek
          rw [Prod.mk.injEq] at hek2
          have hjne : j ≠ meta.relation_1 := by
            intro hEq
            rw [hEq, hr1'_self] at hg2
            exact Option.noConfusion hg2
          rw [hr1'_ne j hjne] at hg2
          have hrr2 : s.relation_1 (e2, kk) = some r1 := by
            rw [hek]
            exact hr1
          obtain ⟨meta2, hm2, hme2, hmr2⟩ := h.j1 e2 kk r1 j sk hrr2 hg2
          have hne : ¬(kk = ck.1 ∧ sk = ck.2) := by
            intro hand
            rw [hand.1, hand.2, hmeta] at hm2
            injection hm2 with hm2
            rw [← hm2] at hmr2
            exact hjne hmr2.symm
          exact ⟨meta2, hkeep2 kk sk meta2 hm2 hne, hme2, hmr2⟩
        · rw [HMap.ins_ne _ _ _ _ hek] at hrr'
          obtain ⟨meta2, hm2, hme2, hmr2⟩ := h.j1 e2 kk r1b j sk hrr' hg2
          have hne : ¬(kk = ck.1 ∧ sk = ck.2) := by
            intro hand
            rw [hand.1, hand.2, hmeta] at hm2
            injection hm2 with hm2
            rw [← hm2] at hme2
            exact hek (by rw [← hme2, hand.1])
          exact ⟨meta2, hkeep2 kk sk meta2 hm2 hne, hme2, hmr2⟩

/-- The invariant of the `remove_entity` directory loop.  `s` is the store
before the call, `ents` the entity slab with `e` already removed, `st` the
current intermediate state and `l` the entries of `e`'s directory still to be
processed. -/
structure RELoop (s : ECS C K) (e : Nat) (ents : Slab Unit)
    (st : ECS C K) (l : List (Nat × (K × Nat))) : Prop where
  ents_eq : st.entities = ents
  r0_eq : st.relation_0 = s.relation_0.del e
  comp_dom : ∀ kk, (st.comp_metas kk).isSome = (s.comp_metas kk).isSome
  r1_map_dom : ∀ ek, (st.relation_1 ek).isSome = (s.relation_1 ek).isSome
  wf_comp : ∀ kk cms, st.comp_metas kk = some cms → cms.WF
  wf_r1 : ∀ ek r1, st.relation_1 ek = some r1 → r1.WF
  nodup : (l.map Prod.snd).Nodup
  orig : ∀ p ∈ l, ∃ meta, s.meta_at p.2.1 p.2.2 = some meta ∧
      meta.entity_key = e ∧ meta.relation_0 = p.1
  pend : ∀ p ∈ l, st.meta_at p.2.1 p.2.2 = s.meta_at p.2.1 p.2.2
  r1pend : ∀ kk sk meta, (∃ j, (j, (kk, sk)) ∈ l) → s.meta_at kk sk = some meta →
      ∃ r1, st.relation_1 (e, kk) = some r1 ∧ r1.get meta.relation_1 = some sk
  removed : ∀ kk sk, (∀ j, (j, (kk, sk)) ∉ l) →
      (∃ meta, s.meta_at kk sk = some meta ∧ meta.entity_key = e) →
      st.meta_at kk sk = none
  frame : ∀ kk sk, ¬(∃ meta, s.meta_at kk sk = some meta ∧ meta.entity_key = e) →
      st.meta_at kk sk = s.meta_at kk sk
  r1cov : ∀ kk r1 i sk, st.relation_1 (e, kk) = some r1 → r1.get i = some sk →
      (∃ j, (j, (kk, sk)) ∈ l) ∧
      ∃ meta, s.meta_at kk sk = some meta ∧ meta.entity_key = e ∧
        meta.relation_1 = i
  r1other : ∀ e2 kk, e2 ≠ e → st.relation_1 (e2, kk) = s.relation_1 (e2, kk)

/-- One step of the `remove_entity` loop succeeds and preserves the loop
invariant. -/
theorem re_step_ok {s : ECS C K} (hs : Inv s) {e : Nat} {ents : Slab Unit}
    {st : ECS C K} {p : Nat × (K × Nat)} {rest : List (Nat × (K × Nat))}
    (hL : RELoop s e ents st (p :: rest)) :
    ∃ st1, remove_entity_step e st p = some st1 ∧ RELoop s e ents st1 rest := by
  obtain ⟨j0, kk0, sk0⟩ := p
  have hmem : ((j0, (kk0, sk0)) : Nat × (K × Nat)) ∈ (j0, (kk0, sk0)) :: rest :=
    List.mem_cons_self _ _
  obtain ⟨meta0, hsm0, howner0, hrel0⟩ := hL.orig _ hmem
  have hpend0 : st.meta_at kk0 sk0 = some meta0 := by
    rw [hL.pend _ hmem]
    exact hsm0
  obtain ⟨cms, hcms, hget0⟩ := meta_at_eq_some.mp hpend0
  obtain ⟨cms', htr⟩ : ∃ cms', cms.try_remove sk0 = some (meta0, cms') :=
    ⟨_, Slab.try_remove_of_get hget0⟩
  obtain ⟨r1, hr1st, hr1get⟩ := hL.r1pend kk0 sk0 meta0 ⟨j0, hmem⟩ hsm0
  obtain ⟨r1', htr1⟩ : ∃ r1', r1.try_remove meta0.relation_1 = some (sk0, r1') :=
    ⟨_, Slab.try_remove_of_get hr1get⟩
  have hstep : remove_entity_step e st (j0, (kk0, sk0)) =
      some ⟨st.entities, st.comp_metas.ins kk0 cms', st.relation_0,
        st.relation_1.ins (e, kk0) r1'⟩ := by
    simp only [remove_entity_step, hcms, htr, hr1st, htr1]
  -- slab-level facts
  have hcms'_self : cms'.get sk0 = none := Slab.try_remove_get_self htr
  have hcms'_ne : ∀ j, j ≠ sk0 → cms'.get j = cms.get j :=
    fun j hj => Slab.try_remove_get_ne htr j hj
  have hr1'_self : r1'.get meta0.relation_1 = none := Slab.try_remove_get_self htr1
  have hr1'_ne : ∀ j, j ≠ meta0.relation_1 → r1'.get j = r1.get j :=
    fun j hj => Slab.try_remove_get_ne htr1 j hj
  have hstM : ∀ sk, st.meta_at kk0 sk = cms.get sk := by
    intro sk
    unfold meta_at
    rw [hcms]
  -- injectivity of relation_1 indices among components of `e` of one kind,
  -- derived from the invariant of `s`
  have hinj1 : ∀ kk sk sk' meta meta', s.meta_at kk sk = some meta →
      s.meta_at kk sk' = some meta' → meta.entity_key = e → meta'.entity_key = e →
      meta.relation_1 = meta'.relation_1 → sk = sk' := by
    intro kk sk sk' meta meta' hm hm' he1 he2 hr
    obtain ⟨r1a, hra, hga⟩ := hs.i2b kk sk meta hm
    obtain ⟨r1b, hrb, hgb⟩ := hs.i2b kk sk' meta' hm'
    rw [he1] at hra
    rw [he2] at hrb
    rw [hra] at hrb
    injection hrb with hrb
    rw [← hrb, ← hr, hga] at hgb
    exact Option.some.inj hgb
  have hnodup_head : ((kk0, sk0) : K × Nat) ∉ rest.map Prod.snd := by
    have := hL.nodup
    rw [List.map_cons] at this
    exact (List.nodup_cons.mp this).1
  have hnodup_rest : (rest.map Prod.snd).Nodup := by
    have := hL.nodup
    rw [List.map_cons] at this
    exact (List.nodup_cons.mp this).2
  -- characterisation of the new meta_at
  have hM1 : ∀ kk sk,
      (⟨st.entities, st.comp_metas.ins kk0 cms', st.relation_0,
        st.relation_1.ins (e, kk0) r1'⟩ : ECS C K).meta_at kk sk =
      (if kk = kk0 then cms'.get sk else st.meta_at kk sk) := by
    intro kk sk
    by_cases hkk : kk = kk0
    · subst hkk
      rw [if_pos rfl]
      show (match st.comp_metas.ins kk cms' kk with
            | none => none
            | some c2 => c2.get sk) = cms'.get sk
      rw [HMap.ins_self]
    · rw [if_neg hkk]
      show (match st.comp_metas.ins kk0 cms' kk with
            | none => none
            | some c2 => c2.get sk) = st.meta_at kk sk
      rw [HMap.ins_ne _ _ _ _ hkk]
      rfl
  have hR1 : ∀ e2 kk,
      (⟨st.entities, st.comp_metas.ins kk0 cms', st.relation_0,
        st.relation_1.ins (e, kk0) r1'⟩ : ECS C K).relation_1 (e2, kk) =
      (if ((e2, kk) : Nat × K) = (e, kk0) then some r1'
        else st.relation_1 (e2, kk)) := by
    intro e2 kk
    by_cases hek : ((e2, kk) : Nat × K) = (e, kk0)
    · rw [if_pos hek]
      show st.relation_1.ins (e, kk0) r1' (e2, kk) = some r1'
      rw [hek]
      exact HMap.ins_self ..
    · rw [if_neg hek]
      show st.relation_1.ins (e, kk0) r1' (e2, kk) = st.relation_1 (e2, kk)
      exact HMap.ins_ne _ _ _ _ hek
  refine ⟨_, hstep, ?_⟩
  refine ⟨hL.ents_eq, hL.r0_eq, ?_, ?_, ?_, ?_, hnodup_rest, ?_, ?_, ?_, ?_, ?_, ?_, ?_⟩
  · intro kk
    show (st.comp_metas.ins kk0 cms' kk).isSome = _
    by_cases hkk : kk = kk0
    · subst hkk
      rw [HMap.ins_self, ← hL.comp_dom kk, hcms]
      rfl
    · rw [HMap.ins_ne _ _ _ _ hkk]
      exact hL.comp_dom kk
  · intro ek
    show (st.relation_1.ins (e, kk0) r1' ek).isSome = _
    by_cases hek : ek = (e, kk0)
    · subst hek
      rw [HMap.ins_self, ← hL.r1_map_dom _, hr1st]
      rfl
    · rw [HMap.ins_ne _ _ _ _ hek]
      exact hL.r1_map_dom ek
  · intro kk cms2 hm
    have hm' : st.comp_metas.ins kk0 cms' kk = some cms2 := hm
    by_cases hkk : kk = kk0
    · subst hkk
      rw [HMap.ins_self] at hm'
      cases hm'
      exact Slab.try_remove_wf htr (hL.wf_comp _ _ hcms)
    · rw [HMap.ins_ne _ _ _ _ hkk] at hm'
      exact hL.wf_comp _ _ hm'
  · intro ek r1b hm
    have hm' : st.relation_1.ins (e, kk0) r1' ek = some r1b := hm
    by_cases hek : ek = (e, kk0)
    · subst hek
      rw [HMap.ins_self] at hm'
      cases hm'
      exact Slab.try_remove_wf htr1 (hL.wf_r1 _ _ hr1st)
    · rw [HMap.ins_ne _ _ _ _ hek] at hm'
      exact hL.wf_r1 _ _ hm'
  · intro q hq
    exact hL.orig q (List.mem_cons_of_mem _ hq)
  · intro q hq
    rw [hM1 q.2.1 q.2.2]
    have hqtail := hL.pend q (List.mem_cons_of_mem _ hq)
    have hqne : q.2 ≠ ((kk0, sk0) : K × Nat) := by
      intro hEq
      exact hnodup_head (hEq ▸ List.mem_map_of_mem Prod.snd hq)
    by_cases hkk : q.2.1 = kk0
    · rw [if_pos hkk]
      have hskne : q.2.2 ≠ sk0 := by
        intro hEq
        apply hqne
        have : q.2 = (q.2.1, q.2.2) := rfl
        rw [this, hkk, hEq]
      rw [hcms'_ne _ hskne, ← hstM, ← hkk]
      exact hqtail
    · rw [if_neg hkk]
      exact hqtail
  · intro kk sk meta hcov hsm
    obtain ⟨j, hj⟩ := hcov
    have hjc : ((j, (kk, sk)) : Nat × (K × Nat)) ∈ (j0, (kk0, sk0)) :: rest :=
      List.mem_cons_of_mem _ hj
    have howner : meta.entity_key = e := by
      obtain ⟨meta', hm', ho', -⟩ := hL.orig _ hjc
      rw [hsm] at hm'
      injection hm' with h'
      rw [h']
      exact ho'
    obtain ⟨r1b, hr1b, hgb⟩ := hL.r1pend kk sk meta ⟨j, hjc⟩ hsm
    rw [hR1 e kk]
    by_cases hkk : kk = kk0
    · subst hkk
      rw [if_pos rfl]
      rw [hr1st] at hr1b
      injection hr1b with hr1b
      refine ⟨r1', rfl, ?_⟩
      have hskne : sk ≠ sk0 := by
        intro hEq
        subst hEq
        exact hnodup_head (List.mem_map_of_mem Prod.snd hj)
      have hrne : meta.relation_1 ≠ meta0.relation_1 := by
        intro hEq
        exact hskne (hinj1 kk sk sk0 meta meta0 hsm hsm0 howner howner0 hEq)
      rw [hr1'_ne _ hrne]
      rw [← hr1b] at hgb
      exact hgb
    · rw [if_neg (by
        intro hEq
        rw [Prod.mk.injEq] at hEq
        exact hkk hEq.2)]
      exact ⟨r1b, hr1b, hgb⟩
  · intro kk sk hnot hsome
    rw [hM1 kk sk]
    by_cases hkk : kk = kk0
    · subst hkk
      rw [if_pos rfl]
      by_cases hsk : sk = sk0
      · subst hsk
        exact hcms'_self
      · rw [hcms'_ne _ hsk, ← hstM]
        refine hL.removed kk sk ?_ hsome
        intro j hj
        rcases List.mem_cons.mp hj with hj0 | hjtail
        · injection hj0 with hj1 hj2
          rw [Prod.mk.injEq] at hj2
          exact hsk hj2.2
        · exact hnot j hjtail
    · rw [if_neg hkk]
      refine hL.removed kk sk ?_ hsome
      intro j hj
      rcases List.mem_cons.mp hj with hj0 | hjtail
      · injection hj0 with hj1 hj2
        rw [Prod.mk.injEq] at hj2
        exact hkk hj2.1
      · exact hnot j hjtail
  · intro kk sk hnot
    rw [hM1 kk sk]
    by_cases hkk : kk = kk0
    · subst hkk
      rw [if_pos rfl]
      by_cases hsk : sk = sk0
      · subst hsk
        exact absurd ⟨meta0, hsm0, howner0⟩ hnot
      · rw [hcms'_ne _ hsk, ← hstM]
        exact hL.frame kk sk hnot
    · rw [if_neg hkk]
      exact hL.frame kk sk hnot
  · intro kk r1n i sk hr1n hgn
    rw [hR1 e kk] at hr1n
    by_cases hkk : kk = kk0
    · subst hkk
      rw [if_pos rfl] at hr1n
      injection hr1n with hr1n
      rw [← hr1n] at hgn
      have hine : i ≠ meta0.relation_1 := by
        intro hEq
        rw [hEq, hr1'_self] at hgn
        exact Option.noConfusion hgn
      rw [hr1'_ne _ hine] at hgn
      obtain ⟨⟨j, hj⟩, meta, hsm, how, hrel⟩ := hL.r1cov kk r1 i sk hr1st hgn
      rcases List.mem_cons.mp hj with hj0 | hjtail
      · injection hj0 with hj1 hj2
        rw [Prod.mk.injEq] at hj2
        rw [hj2.2] at hsm
        rw [hsm0] at hsm
        injection hsm with hsm
        rw [← hsm] at hrel
        exact absurd hrel.symm hine
      · exact ⟨⟨j, hjtail⟩, meta, hsm, how, hrel⟩
    · rw [if_neg (by
        intro hEq
        rw [Prod.mk.injEq] at hEq
        exact hkk hEq.2)] at hr1n
      obtain ⟨⟨j, hj⟩, meta, hsm, how, hrel⟩ := hL.r1cov kk r1n i sk hr1n hgn
      rcases List.mem_cons.mp hj with hj0 | hjtail
      · injection hj0 with hj1 hj2
        rw [Prod.mk.injEq] at hj2
        exact absurd hj2.1 hkk
      · exact ⟨⟨j, hjtail⟩, meta, hsm, how, hrel⟩
  · intro e2 kk he2
    rw [hR1 e2 kk]
    rw [if_neg (by
      intro hEq
      rw [Prod.mk.injEq] at hEq
      exact he2 hEq.1)]
    exact hL.r1other e2 kk he2

theorem remove_entity_loop_ok {s : ECS C K} (hs : Inv s) {e : Nat}
    {ents : Slab Unit} :
    ∀ l st, RELoop s e ents st l →
      ∃ st', remove_entity_loop e st l = some st' ∧ RELoop s e ents st' [] := by
  intro l
  induction l with
  | nil => intro st hL; exact ⟨st, rfl, hL⟩
  | cons p rest ih =>
    intro st hL
    obtain ⟨st1, hstep, hL1⟩ := re_step_ok hs hL
    obtain ⟨st', hloop, hL'⟩ := ih st1 hL1
    refine ⟨st', ?_, hL'⟩
    show remove_entity_loop e st (p :: rest) = some st'
    simp only [remove_entity_loop, hstep]
    exact hloop

/-- On a store satisfying the invariant, removing a live entity succeeds
(no internal `.check()` fires), removes exactly the components owned by the
entity, empties — but does not delete — every `relation_1` slab of the
entity, deletes the entity's `relation_0` directory, leaves everything else
untouched, and preserves the invariant. -/
theorem remove_entity_success {s : ECS C K} (h : Inv s) {e : Nat} {u : Unit}
    {ents : Slab Unit} (htr : s.entities.try_remove e = some (u, ents)) :
    ∃ st', s.remove_entity e = some (some (), st') ∧
      st'.entities = ents ∧
      st'.relation_0 = s.relation_0.del e ∧
      (∀ kk, (st'.comp_metas kk).isSome = (s.comp_metas kk).isSome) ∧
      (∀ ek, (st'.relation_1 ek).isSome = (s.relation_1 ek).isSome) ∧
      (∀ kk sk meta, s.meta_at kk sk = some meta → meta.entity_key = e →
        st'.meta_at kk sk = none) ∧
      (∀ kk sk, ¬(∃ meta, s.meta_at kk sk = some meta ∧ meta.entity_key = e) →
        st'.meta_at kk sk = s.meta_at kk sk) ∧
      (∀ kk r1, st'.relation_1 (e, kk) = some r1 → ∀ i, r1.get i = none) ∧
      (∀ e2 kk, e2 ≠ e → st'.relation_1 (e2, kk) = s.relation_1 (e2, kk)) ∧
      Inv st' := by
  cases hr0 : s.relation_0 e with
  | none =>
    have hnoown : ∀ kk sk meta, s.meta_at kk sk = some meta →
        meta.entity_key ≠ e := by
      intro kk sk meta hm hEq
      obtain ⟨r0b, hrb, -⟩ := h.i2a kk sk meta hm
      rw [hEq, hr0] at hrb
      exact Option.noConfusion hrb
    refine ⟨{ s with entities := ents }, ?_, rfl, ?_, fun _ => rfl, fun _ => rfl,
      ?_, fun _ _ _ => rfl, ?_, fun _ _ _ => rfl, ?_⟩
    · simp only [remove_entity, htr, hr0]
    · funext e2
      by_cases he2 : e2 = e
      · subst he2
        rw [HMap.del_self]
        exact hr0
      · rw [HMap.del_ne _ _ _ he2]
    · intro kk sk meta hm hEq
      exact absurd hEq (hnoown kk sk meta hm)
    · intro kk r1 hr1 i
      cases hgi : r1.get i with
      | none => rfl
      | some sk =>
        obtain ⟨meta, hm, how, -⟩ := h.j1 e kk r1 i sk hr1 hgi
        exact absurd how (hnoown kk sk meta hm)
    · refine ⟨Slab.try_remove_wf htr h.wf_entities, h.wf_comp, h.wf_r0, h.wf_r1,
        h.r1_dom, ?_, h.i2a, h.i2b, h.j0, h.j1⟩
      intro kk sk meta hm
      show ents.get meta.entity_key = some ()
      rw [Slab.try_remove_get_ne htr _ (hnoown kk sk meta hm)]
      exact h.i1 kk sk meta hm
  | some r0 =>
    have hRE : RELoop s e ents
        ⟨ents, s.comp_metas, s.relation_0.del e, s.relation_1⟩ r0.iter := by
      refine ⟨rfl, rfl, fun _ => rfl, fun _ => rfl, h.wf_comp, h.wf_r1, ?_, ?_,
        fun _ _ => rfl, ?_, ?_, fun _ _ _ => rfl, ?_, fun _ _ _ => rfl⟩
      · -- distinct targets
        have hpw := Slab.iter_pairwise r0
        have hpw2 : r0.iter.Pairwise (fun a b => a.2 ≠ b.2) := by
          refine List.Pairwise.imp_of_mem ?_ hpw
          intro a b ha hb hlt hEq
          have hga := Slab.mem_iter_pair.mp ha
          have hgb := Slab.mem_iter_pair.mp hb
          obtain ⟨ma, hma, -, hra⟩ := h.j0 e r0 a.1 a.2.1 a.2.2 hr0 hga
          obtain ⟨mb, hmb, -, hrb⟩ := h.j0 e r0 b.1 b.2.1 b.2.2 hr0 hgb
          rw [hEq] at hma
          rw [hmb] at hma
          have hmab : mb = ma := Option.some.inj hma
          rw [hmab, hra] at hrb
          exact absurd hrb (Nat.ne_of_lt hlt)
        exact List.pairwise_map.mpr hpw2
      · intro p hp
        exact h.j0 e r0 p.1 p.2.1 p.2.2 hr0 (Slab.mem_iter_pair.mp hp)
      · intro kk sk meta hcov hsm
        obtain ⟨j, hj⟩ := hcov
        obtain ⟨meta', hm', ho', -⟩ := h.j0 e r0 j kk sk hr0 (Slab.mem_iter_pair.mp hj)
        have hmm : meta' = meta := by
          rw [hsm] at hm'
          exact (Option.some.inj hm').symm
        have howner : meta.entity_key = e := hmm ▸ ho'
        obtain ⟨r1, hr1, hg1⟩ := h.i2b kk sk meta hsm
        rw [howner] at hr1
        exact ⟨r1, hr1, hg1⟩
      · rintro kk sk hnot ⟨meta, hm, how⟩
        obtain ⟨r0b, hrb, hgb⟩ := h.i2a kk sk meta hm
        rw [how, hr0] at hrb
        injection hrb with hrb
        rw [← hrb] at hgb
        exact absurd (Slab.mem_iter_pair.mpr hgb) (hnot meta.relation_0)
      · intro kk r1 i sk hr1 hgi
        obtain ⟨meta, hm, how, hrel⟩ := h.j1 e kk r1 i sk hr1 hgi
        obtain ⟨r0b, hrb, hgb⟩ := h.i2a kk sk meta hm
        rw [how, hr0] at hrb
        injection hrb with hrb
        rw [← hrb] at hgb
        exact ⟨⟨meta.relation_0, Slab.mem_iter_pair.mpr hgb⟩, meta, hm, how, hrel⟩
    obtain ⟨st', hloop, hF⟩ := remove_entity_loop_ok h r0.iter _ hRE
    have hout : s.remove_entity e = some (some (), st') := by
      simp only [remove_entity, htr, hr0, hloop]
    have hrm_all : ∀ kk sk meta, s.meta_at kk sk = some meta →
        meta.entity_key = e → st'.meta_at kk sk = none := by
      intro kk sk meta hm how
      exact hF.removed kk sk (fun j hj => absurd hj (List.not_mem_nil _))
        ⟨meta, hm, how⟩
    have hr1_empty : ∀ kk r1, st'.relation_1 (e, kk) = some r1 →
        ∀ i, r1.get i = none := by
      intro kk r1 hr1 i
      cases hgi : r1.get i with
      | none => rfl
      | some sk =>
        obtain ⟨⟨j, hj⟩, -⟩ := hF.r1cov kk r1 i sk hr1 hgi
        exact absurd hj (List.not_mem_nil _)
    refine ⟨st', hout, hF.ents_eq, hF.r0_eq, hF.comp_dom, hF.r1_map_dom,
      hrm_all, hF.frame, hr1_empty, hF.r1other, ?_⟩
    refine ⟨?_, hF.wf_comp, ?_, hF.wf_r1, ?_, ?_, ?_, ?_, ?_, ?_⟩
    · rw [hF.ents_eq]
      exact Slab.try_remove_wf htr h.wf_entities
    · intro e2 r0b hm
      rw [hF.r0_eq] at hm
      by_cases he2 : e2 = e
      · subst he2
        rw [HMap.del_self] at hm
        exact Option.noConfusion hm
      · rw [HMap.del_ne _ _ _ he2] at hm
        exact h.wf_r0 _ _ hm
    · intro e2 kk r1b hm
      have hsome : (s.relation_1 (e2, kk)).isSome := by
        rw [← hF.r1_map_dom, hm]
        rfl
      obtain ⟨r1sb, hr1sb⟩ := Option.isSome_iff_exists.mp hsome
      rw [hF.comp_dom]
      exact h.r1_dom e2 kk r1sb hr1sb
    · intro kk sk meta2 hm
      by_cases hex : ∃ meta, s.meta_at kk sk = some meta ∧ meta.entity_key = e
      · obtain ⟨meta, hms, how⟩ := hex
        rw [hrm_all kk sk meta hms how] at hm
        exact Option.noConfusion hm
      · rw [hF.frame kk sk hex] at hm
        have how2 : meta2.entity_key ≠ e := fun hEq => hex ⟨meta2, hm, hEq⟩
        rw [hF.ents_eq]
        rw [Slab.try_remove_get_ne htr _ how2]
        exact h.i1 kk sk meta2 hm
    · intro kk sk meta2 hm
      by_cases hex : ∃ meta, s.meta_at kk sk = some meta ∧ meta.entity_key = e
      · obtain ⟨meta, hms, how⟩ := hex
        rw [hrm_all kk sk meta hms how] at hm
        exact Option.noConfusion hm
      · rw [hF.frame kk sk hex] at hm
        have how2 : meta2.entity_key ≠ e := fun hEq => hex ⟨meta2, hm, hEq⟩
        obtain ⟨r0b, hrb, hgb⟩ := h.i2a kk sk meta2 hm
        refine ⟨r0b, ?_, hgb⟩
        rw [hF.r0_eq, HMap.del_ne _ _ _ how2]
        exact hrb
    · intro kk sk meta2 hm
      by_cases hex : ∃ meta, s.meta_at kk sk = some meta ∧ meta.entity_key = e
      · obtain ⟨meta, hms, how⟩ := hex
        rw [hrm_all kk sk meta hms how] at hm
        exact Option.noConfusion hm
      · rw [hF.frame kk sk hex] at hm
        have how2 : meta2.entity_key ≠ e := fun hEq => hex ⟨meta2, hm, hEq⟩
        obtain ⟨r1b, hrb, hgb⟩ := h.i2b kk sk meta2 hm
        refine ⟨r1b, ?_, hgb⟩
        rw [hF.r1other _ _ how2]
        exact hrb
    · intro e2 r0b j kk sk hm hg
      rw [hF.r0_eq] at hm
      by_cases he2 : e2 = e
      · subst he2
        rw [HMap.del_self] at hm
        exact Option.noConfusion hm
      · rw [HMap.del_ne _ _ _ he2] at hm
        obtain ⟨meta2, hm2, hme2, hmr2⟩ := h.j0 e2 r0b j kk sk hm hg
        have hnotex : ¬∃ meta3, s.meta_at kk sk = some meta3 ∧
            meta3.entity_key = e := by
          rintro ⟨meta3, hm3, h3⟩
          rw [hm2] at hm3
          have h23 : meta2 = meta3 := Option.some.inj hm3
          rw [← h23] at h3
          rw [hme2] at h3
          exact he2 h3
        refine ⟨meta2, ?_, hme2, hmr2⟩
        rw [hF.frame kk sk hnotex]
        exact hm2
    · intro e2 kk r1b j sk hm hg
      by_cases he2 : e2 = e
      · subst he2
        obtain ⟨⟨jw, hjw⟩, -⟩ := hF.r1cov kk r1b j sk hm hg
        exact absurd hjw (List.not_mem_nil _)
      · rw [hF.r1other _ _ he2] at hm
        obtain ⟨meta2, hm2, hme2, hmr2⟩ := h.j1 e2 kk r1b j sk hm hg
        have hnotex : ¬∃ meta3, s.meta_at kk sk = some meta3 ∧
            meta3.entity_key = e := by
          rintro ⟨meta3, hm3, h3⟩
          rw [hm2] at hm3
          have h23 : meta2 = meta3 := Option.some.inj hm3
          rw [← h23] at h3
          rw [hme2] at h3
          exact he2 h3
        refine ⟨meta2, ?_, hme2, hmr2⟩
        rw [hF.frame kk sk hnotex]
        exact hm2

theorem mut_loop_ok (kk : K) (f : Nat → C → C) :
    ∀ (ks : List Nat) (st : ECS C K),
      (∀ sk ∈ ks, ∃ meta, st.meta_at kk sk = some meta) →
      ks.Nodup →
      (∀ kk2 cms, st.comp_metas kk2 = some cms → cms.WF) →
      ∃ st', mut_by_entity_loop kk f st ks = some st' ∧
        st'.entities = st.entities ∧
        st'.relation_0 = st.relation_0 ∧
        st'.relation_1 = st.relation_1 ∧
        (∀ kk2, (st'.comp_metas kk2).isSome = (st.comp_metas kk2).isSome) ∧
        (∀ kk2 cms, st'.comp_metas kk2 = some cms → cms.WF) ∧
        (∀ kk2 sk, kk2 ≠ kk → st'.meta_at kk2 sk = st.meta_at kk2 sk) ∧
        (∀ sk ∈ ks, st'.meta_at kk sk =
          (st.meta_at kk sk).map fun meta => { meta with inner := f sk meta.inner }) ∧
        (∀ sk, sk ∉ ks → st'.meta_at kk sk = st.meta_at kk sk) := by
  intro ks
  induction ks with
  | nil =>
    intro st hpres hnd hwf
    exact ⟨st, rfl, rfl, rfl, rfl, fun _ => rfl, hwf, fun _ _ _ => rfl,
      fun sk hsk => absurd hsk (List.not_mem_nil _), fun _ _ => rfl⟩
  | cons sk0 rest ih =>
    intro st hpres hnd hwf
    obtain ⟨meta0, hm0⟩ := hpres sk0 (List.mem_cons_self _ _)
    obtain ⟨cms, hcms, hget0⟩ := meta_at_eq_some.mp hm0
    have hndc := List.nodup_cons.mp hnd
    -- the state after writing through the first yielded reference
    have hM1 : ∀ kk2 sk,
        (⟨st.entities,
          st.comp_metas.ins kk (cms.update sk0 { meta0 with inner := f sk0 meta0.inner }),
          st.relation_0, st.relation_1⟩ : ECS C K).meta_at kk2 sk =
        (if kk2 = kk
          then (cms.update sk0 { meta0 with inner := f sk0 meta0.inner }).get sk
          else st.meta_at kk2 sk) := by
      intro kk2 sk
      by_cases hkk : kk2 = kk
      · subst hkk
        rw [if_pos rfl]
        show (match st.comp_metas.ins kk2 _ kk2 with
              | none => none
              | some c2 => c2.get sk) = _
        rw [HMap.ins_self]
      · rw [if_neg hkk]
        show (match st.comp_metas.ins kk _ kk2 with
              | none => none
              | some c2 => c2.get sk) = st.meta_at kk2 sk
        rw [HMap.ins_ne _ _ _ _ hkk]
        rfl
    have hstM : ∀ sk, st.meta_at kk sk = cms.get sk := by
      intro sk
      unfold meta_at
      rw [hcms]
    have hpres1 : ∀ sk ∈ rest, ∃ meta,
        (⟨st.entities,
          st.comp_metas.ins kk (cms.update sk0 { meta0 with inner := f sk0 meta0.inner }),
          st.relation_0, st.relation_1⟩ : ECS C K).meta_at kk sk = some meta := by
      intro sk hsk
      obtain ⟨meta, hm⟩ := hpres sk (List.mem_cons_of_mem _ hsk)
      have hne : sk ≠ sk0 := fun hEq => hndc.1 (hEq ▸ hsk)
      refine ⟨meta, ?_⟩
      rw [hM1 kk sk, if_pos rfl, Slab.update_get_ne _ _ _ _ hne, ← hstM]
      exact hm
    have hwf1 : ∀ kk2 cms2,
        (⟨st.entities,
          st.comp_metas.ins kk (cms.update sk0 { meta0 with inner := f sk0 meta0.inner }),
          st.relation_0, st.relation_1⟩ : ECS C K).comp_metas kk2 = some cms2 →
        cms2.WF := by
      intro kk2 cms2 hm
      have hm' : st.comp_metas.ins kk
          (cms.update sk0 { meta0 with inner := f sk0 meta0.inner }) kk2 = some cms2 := hm
      by_cases hkk : kk2 = kk
      · subst hkk
        rw [HMap.ins_self] at hm'
        cases hm'
        exact Slab.update_wf (hwf _ _ hcms) hget0 _
      · rw [HMap.ins_ne _ _ _ _ hkk] at hm'
        exact hwf _ _ hm'
    obtain ⟨st', hloop, hent, hrel0, hrel1, hdom, hwf', hother, hin, hout⟩ :=
      ih _ hpres1 hndc.2 hwf1
    have hstep : mut_by_entity_loop kk f st (sk0 :: rest) =
        mut_by_entity_loop kk f
          ⟨st.entities,
            st.comp_metas.ins kk (cms.update sk0 { meta0 with inner := f sk0 meta0.inner }),
            st.relation_0, st.relation_1⟩ rest := by
      simp only [mut_by_entity_loop, hcms, hget0]
    refine ⟨st', by rw [hstep]; exact hloop, hent, hrel0, hrel1, ?_, hwf', ?_, ?_, ?_⟩
    · intro kk2
      rw [hdom kk2]
      show (st.comp_metas.ins kk _ kk2).isSome = _
      by_cases hkk : kk2 = kk
      · subst hkk
        rw [HMap.ins_self, hcms]
        rfl
      · rw [HMap.ins_ne _ _ _ _ hkk]
    · intro kk2 sk hkk
      rw [hother kk2 sk hkk, hM1 kk2 sk, if_neg hkk]
    · intro sk hsk
      rcases List.mem_cons.mp hsk with hEq | htail
      · subst hEq
        rw [hout sk hndc.1, hM1 kk sk, if_pos rfl,
          Slab.update_get_self hget0, hstM sk, hget0]
        rfl
      · rw [hin sk htail, hM1 kk sk, if_pos rfl]
        have hne : sk ≠ sk0 := fun hEq => hndc.1 (hEq ▸ htail)
        rw [Slab.update_get_ne _ _ _ _ hne, ← hstM]
    · intro sk hsk
      have hne : sk ≠ sk0 := fun hEq => hsk (hEq ▸ List.mem_cons_self _ _)
      have htail : sk ∉ rest := fun hmem => hsk (List.mem_cons_of_mem _ hmem)
      rw [hout sk htail, hM1 kk sk, if_pos rfl, Slab.update_get_ne _ _ _ _ hne,
        ← hstM]

/-- The keys visited by a scoped mutable iteration are pairwise distinct, the
iteration never panics, and its effect is exactly one application of the
caller's mutation to each visited component. -/
theorem iter_comp_mut_by_entity_total {s : ECS C K} (h : Inv s) (e : Nat)
    (kk : K) (f : Nat → C → C) :
    s.iter_comp_mut_by_entity_apply e kk f = some none ∨
    ∃ s' r1, s.iter_comp_mut_by_entity_apply e kk f = some (some s') ∧
      s.relation_1 (e, kk) = some r1 ∧
      (r1.iter.map Prod.snd).Nodup ∧
      s'.entities = s.entities ∧
      s'.relation_0 = s.relation_0 ∧
      s'.relation_1 = s.relation_1 ∧
      (∀ kk2, (s'.comp_metas kk2).isSome = (s.comp_metas kk2).isSome) ∧
      (∀ sk, sk ∈ r1.iter.map Prod.snd → s'.meta_at kk sk =
        (s.meta_at kk sk).map fun meta => { meta with inner := f sk meta.inner }) ∧
      (∀ sk, sk ∉ r1.iter.map Prod.snd → s'.meta_at kk sk = s.meta_at kk sk) ∧
      (∀ kk2 sk, kk2 ≠ kk → s'.meta_at kk2 sk = s.meta_at kk2 sk) ∧
      Inv s' := by
  cases hc : s.comp_metas kk with
  | none =>
    left
    simp only [iter_comp_mut_by_entity_apply, hc]
  | some cms =>
    cases hr1 : s.relation_1 (e, kk) with
    | none =>
      left
      simp only [iter_comp_mut_by_entity_apply, hc, hr1]
    | some r1 =>
      right
      have hpres : ∀ sk ∈ r1.iter.map Prod.snd, ∃ meta, s.meta_at kk sk = some meta := by
        intro sk hsk
        obtain ⟨p, hp, hpe⟩ := List.mem_map.mp hsk
        have hg := Slab.mem_iter_pair.mp hp
        rw [hpe] at hg
        obtain ⟨meta, hm, -, -⟩ := h.j1 e kk r1 p.1 sk hr1 hg
        exact ⟨meta, hm⟩
      have hnd : (r1.iter.map Prod.snd).Nodup := by
        have hpw := Slab.iter_pairwise r1
        have hpw2 : r1.iter.Pairwise (fun a b => a.2 ≠ b.2) := by
          refine List.Pairwise.imp_of_mem ?_ hpw
          intro a b ha hb hlt hEq
          have hga := Slab.mem_iter_pair.mp ha
          have hgb := Slab.mem_iter_pair.mp hb
          obtain ⟨ma, hma, -, hra⟩ := h.j1 e kk r1 a.1 a.2 hr1 hga
          obtain ⟨mb, hmb, -, hrb⟩ := h.j1 e kk r1 b.1 b.2 hr1 hgb
          rw [hEq] at hma
          rw [hmb] at hma
          have hmab : mb = ma := Option.some.inj hma
          rw [hmab, hra] at hrb
          exact absurd hrb (Nat.ne_of_lt hlt)
        exact List.pairwise_map.mpr hpw2
      obtain ⟨s', hloop, hent, hrel0, hrel1, hdom, hwf', hother, hin, hout⟩ :=
        mut_loop_ok kk f (r1.iter.map Prod.snd) s hpres hnd h.wf_comp
      have hap : s.iter_comp_mut_by_entity_apply e kk f = some (some s') := by
        simp only [iter_comp_mut_by_entity_apply, hc, hr1, hloop]
      have hshape : ∀ kk2 sk, MetaShape (s'.meta_at kk2 sk) (s.meta_at kk2 sk) := by
        intro kk2 sk
        by_cases hkk : kk2 = kk
        · subst hkk
          by_cases hsk : sk ∈ r1.iter.map Prod.snd
          · rw [hin sk hsk]
            cases s.meta_at kk2 sk with
            | none => exact trivial
            | some m => exact ⟨rfl, rfl, rfl⟩
          · rw [hout sk hsk]
            exact metaShape_refl _
        · rw [hother kk2 sk hkk]
          exact metaShape_refl _
      refine ⟨s', r1, hap, rfl, hnd, hent, hrel0, hrel1, hdom, hin, hout, hother, ?_⟩
      exact inv_of_inner_change hent hrel0 hrel1 hwf' hdom hshape h

theorem inv_mut_by_entity {s : ECS C K} (h : Inv s) {e : Nat} {kk : K}
    {f : Nat → C → C} {s' : ECS C K}
    (hap : s.iter_comp_mut_by_entity_apply e kk f = some (some s')) : Inv s' := by
  rcases iter_comp_mut_by_entity_total h e kk f with hnone | ⟨s'', r1, hap', -, -, -,
    -, -, -, -, -, -, hinv⟩
  · rw [hnone] at hap
    injection hap with hap
    exact Option.noConfusion hap
  · rw [hap'] at hap
    injection hap with hap
    injection hap with hap
    rw [← hap]
    exact hinv

theorem inv_remove_entity {s : ECS C K} (h : Inv s) {e : Nat}
    {r : Option Unit} {s' : ECS C K}
    (hre : s.remove_entity e = some (r, s')) : Inv s' := by
  cases htr : s.entities.try_remove e with
  | none =>
    simp only [remove_entity, htr] at hre
    injection hre with hre
    injection hre with hre1 hre2
    rw [← hre2]
    exact h
  | some pr =>
    obtain ⟨u, ents⟩ := pr
    obtain ⟨st', hout, -, -, -, -, -, -, -, -, hinv⟩ := remove_entity_success h htr
    rw [hout] at hre
    injection hre with hre
    injection hre with hre1 hre2
    rw [← hre2]
    exact hinv

/-- A successful `insert_comp` places a record holding the inserted value,
owned by the target entity, at the returned key. -/
theorem insert_comp_spec (kindOf : C → K) {s : ECS C K} (h : Inv s) {e : Nat}
    (he : s.entities.get e = some ()) (c : C) :
    ∃ k meta, (insert_comp kindOf s e c).1 = some k ∧
      (insert_comp kindOf s e c).2.meta_at k.1 k.2 = some meta ∧
      meta.inner = c ∧ meta.entity_key = e := by
  have hcmwf : ((s.comp_metas (kindOf c)).getD Slab.new).WF :=
    Slab.wf_getD (h.wf_comp (kindOf c))
  have h1 : (insert_comp kindOf s e c).1 =
      some (kindOf c, ((s.comp_metas (kindOf c)).getD Slab.new).vacant_key) := by
    simp only [insert_comp, he]
  have h2 : (insert_comp kindOf s e c).2.comp_metas (kindOf c) =
      some (((s.comp_metas (kindOf c)).getD Slab.new).insert
        ⟨c, e, (((s.relation_0 e).getD Slab.new).insert
            (kindOf c, ((s.comp_metas (kindOf c)).getD Slab.new).vacant_key)).1,
          (((s.relation_1 (e, kindOf c)).getD Slab.new).insert
            ((s.comp_metas (kindOf c)).getD Slab.new).vacant_key).1⟩).2 := by
    simp only [insert_comp, he]
    exact HMap.ins_self ..
  have h3 : (insert_comp kindOf s e c).2.meta_at (kindOf c)
      (((s.comp_metas (kindOf c)).getD Slab.new).vacant_key) =
      some ⟨c, e, (((s.relation_0 e).getD Slab.new).insert
          (kindOf c, ((s.comp_metas (kindOf c)).getD Slab.new).vacant_key)).1,
        (((s.relation_1 (e, kindOf c)).getD Slab.new).insert
          ((s.comp_metas (kindOf c)).getD Slab.new).vacant_key).1⟩ := by
    unfold meta_at
    rw [h2]
    exact (Slab.insert_spec hcmwf _).2.1
  exact ⟨_, _, h1, h3, rfl, rfl⟩

/-- One public mutating operation of the store, relating a state to a possible
successor.  Result-returning reads do not change the state; mutation through
`get_comp_mut` and the two mutable iterators is covered by `write_comp`,
`iter_comp_mut_apply` and `iter_comp_mut_by_entity_apply`. -/
inductive Step (kindOf : C → K) : ECS C K → ECS C K → Prop where
  | insert_entity_st (s : ECS C K) : Step kindOf s (insert_entity s).2
  | remove_entity_st (s : ECS C K) (e : Nat) (r : Option Unit) (s' : ECS C K) :
      remove_entity s e = some (r, s') → Step kindOf s s'
  | insert_comp_st (s : ECS C K) (e : Nat) (c : C) :
      Step kindOf s (insert_comp kindOf s e c).2
  | remove_comp_st (s : ECS C K) (ck : K × Nat) (r : Option C) (s' : ECS C K) :
      remove_comp s ck = some (r, s') → Step kindOf s s'
  | write_comp_st (s : ECS C K) (ck : K × Nat) (c : C) :
      Step kindOf s (write_comp s ck c)
  | mut_all_st (s : ECS C K) (kk : K) (f : Nat → C → C) (s' : ECS C K) :
      iter_comp_mut_apply s kk f = some s' → Step kindOf s s'
  | mut_by_entity_st (s : ECS C K) (e : Nat) (kk : K) (f : Nat → C → C)
      (s' : ECS C K) :
      iter_comp_mut_by_entity_apply s e kk f = some (some s') → Step kindOf s s'
  | clear_st (s : ECS C K) : Step kindOf s (clear s)

/-- A state is reachable when some sequence of public operations produces it
from `ECS::new()`. -/
def Reachable (kindOf : C → K) (s : ECS C K) : Prop :=
  Relation.ReflTransGen (Step kindOf) new s

theorem inv_step {kindOf : C → K} {s s' : ECS C K} (h : Inv s)
    (hs : Step kindOf s s') : Inv s' := by
  cases hs with
  | insert_entity_st => exact inv_insert_entity h
  | remove_entity_st e r s2 hre => exact inv_remove_entity h hre
  | insert_comp_st e c => exact inv_insert_comp kindOf h e c
  | remove_comp_st ck r s2 hrc => exact inv_remove_comp h hrc
  | write_comp_st ck c => exact inv_write_comp h ck c
  | mut_all_st kk f s2 hap => exact inv_iter_comp_mut_apply h hap
  | mut_by_entity_st e kk f s2 hap => exact inv_mut_by_entity h hap
  | clear_st => exact inv_clear s

/-- Every reachable state satisfies the invariant. -/
theorem inv_reachable {kindOf : C → K} {s : ECS C K} (h : Reachable kindOf s) :
    Inv s := by
  induction h with
  | refl => exact inv_new
  | tail _ hstep ih => exact inv_step ih hstep

theorem remove_comp_no_panic {s : ECS C K} (h : Inv s) (ck : K × Nat) :
    s.remove_comp ck ≠ none := by
  cases hc : s.comp_metas ck.1 with
  | none =>
    simp only [remove_comp, hc]
    exact fun hEq => Option.noConfusion hEq
  | some cms =>
    cases hrm : cms.try_remove ck.2 with
    | none =>
      simp only [remove_comp, hc, hrm]
      exact fun hEq => Option.noConfusion hEq
    | some pr =>
      obtain ⟨meta, cms'⟩ := pr
      obtain ⟨r0, t0, r0', r1, t1, r1', hr0, htr0, ht0, hr1, htr1, ht1, hout⟩ :=
        remove_comp_success h hc hrm
      rw [hout]
      exact fun hEq => Option.noConfusion hEq

theorem remove_entity_no_panic {s : ECS C K} (h : Inv s) (e : Nat) :
    s.remove_entity e ≠ none := by
  cases htr : s.entities.try_remove e with
  | none =>
    simp only [remove_entity, htr]
    exact fun hEq => Option.noConfusion hEq
  | some pr =>
    obtain ⟨u, ents⟩ := pr
    obtain ⟨st', hout, -⟩ := remove_entity_success h htr
    rw [hout]
    exact fun hEq => Option.noConfusion hEq

theorem iter_comp_by_entity_no_panic {s : ECS C K} (h : Inv s) (e : Nat) (kk : K)
    {l : List (Option C)} (hl : s.iter_comp_by_entity e kk = some l) :
    ∀ x ∈ l, x.isSome := by
  cases hc : s.comp_metas kk with
  | none =>
    simp only [iter_comp_by_entity, hc] at hl
    exact Option.noConfusion hl
  | some cms =>
    cases hr1 : s.relation_1 (e, kk) with
    | none =>
      simp only [iter_comp_by_entity, hc, hr1] at hl
      exact Option.noConfusion hl
    | some r1 =>
      simp only [iter_comp_by_entity, hc, hr1] at hl
      injection hl with hl
      intro x hx
      rw [← hl] at hx
      obtain ⟨p, hp, hpe⟩ := List.mem_map.mp hx
      have hg := Slab.mem_iter_pair.mp hp
      obtain ⟨meta, hm, -, -⟩ := h.j1 e kk r1 p.1 p.2 hr1 hg
      obtain ⟨cms2, hc2, hget⟩ := meta_at_eq_some.mp hm
      rw [hc] at hc2
      injection hc2 with hc2
      rw [← hpe, hc2, hget]
      rfl

theorem mut_by_entity_no_panic {s : ECS C K} (h : Inv s) (e : Nat) (kk : K)
    (f : Nat → C → C) : s.iter_comp_mut_by_entity_apply e kk f ≠ none := by
  rcases iter_comp_mut_by_entity_total h e kk f with hnone | ⟨s', r1, hap, -⟩
  · rw [hnone]
    exact fun hEq => Option.noConfusion hEq
  · rw [hap]
    exact fun hEq => Option.noConfusion hEq

/-- Reachability annotated, for one kind `kk`, with a flag recording whether a
component of kind `kk` has been (successfully) inserted since the store was
created or last cleared. -/
inductive ReachK (kindOf : C → K) (kk : K) : ECS C K → Bool → Prop where
  | start : ReachK kindOf kk new false
  | ins_ent {s : ECS C K} {b : Bool} : ReachK kindOf kk s b →
      ReachK kindOf kk (insert_entity s).2 b
  | rem_ent {s : ECS C K} {b : Bool} {e : Nat} {r : Option Unit} {s' : ECS C K} :
      ReachK kindOf kk s b → remove_entity s e = some (r, s') →
      ReachK kindOf kk s' b
  | ins_comp {s : ECS C K} {b : Bool} (e : Nat) (c : C) : ReachK kindOf kk s b →
      ReachK kindOf kk (insert_comp kindOf s e c).2
        (b || ((insert_comp kindOf s e c).1.isSome && decide (kindOf c = kk)))
  | rem_comp {s : ECS C K} {b : Bool} {ck : K × Nat} {r : Option C} {s' : ECS C K} :
      ReachK kindOf kk s b → remove_comp s ck = some (r, s') →
      ReachK kindOf kk s' b
  | wr_comp {s : ECS C K} {b : Bool} (ck : K × Nat) (c : C) : ReachK kindOf kk s b →
      ReachK kindOf kk (write_comp s ck c) b
  | mut_all {s : ECS C K} {b : Bool} {kf : K} {f : Nat → C → C} {s' : ECS C K} :
      ReachK kindOf kk s b → iter_comp_mut_apply s kf f = some s' →
      ReachK kindOf kk s' b
  | mut_ent {s : ECS C K} {b : Bool} {e : Nat} {kf : K} {f : Nat → C → C}
      {s' : ECS C K} : ReachK kindOf kk s b →
      iter_comp_mut_by_entity_apply s e kf f = some (some s') →
      ReachK kindOf kk s' b
  | clear_op {s : ECS C K} {b : Bool} : ReachK kindOf kk s b →
      ReachK kindOf kk (clear s) false

theorem remove_entity_step_dom {e : Nat} {st st1 : ECS C K} {p : Nat × (K × Nat)}
    (h : remove_entity_step e st p = some st1) (kk : K) :
    (st1.comp_metas kk).isSome = (st.comp_metas kk).isSome := by
  cases hc : st.comp_metas p.2.1 with
  | none => simp only [remove_entity_step, hc] at h; exact Option.noConfusion h
  | some cms =>
    cases hrm : cms.try_remove p.2.2 with
    | none =>
      simp only [remove_entity_step, hc, hrm] at h
      exact Option.noConfusion h
    | some pr =>
      obtain ⟨meta, cms'⟩ := pr
      cases hr1 : st.relation_1 (e, p.2.1) with
      | none =>
        simp only [remove_entity_step, hc, hrm, hr1] at h
        exact Option.noConfusion h
      | some r1 =>
        cases htr1 : r1.try_remove meta.relation_1 with
        | none =>
          simp only [remove_entity_step, hc, hrm, hr1, htr1] at h
          exact Option.noConfusion h
        | some pr1 =>
          obtain ⟨t1, r1'⟩ := pr1
          simp only [remove_entity_step, hc, hrm, hr1, htr1] at h
          injection h with h
          rw [← h]
          show (st.comp_metas.ins p.2.1 cms' kk).isSome = _
          by_cases hkk : kk = p.2.1
          · subst hkk
            rw [HMap.ins_self, hc]
            rfl
          · rw [HMap.ins_ne _ _ _ _ hkk]

theorem remove_entity_loop_dom {e : Nat} :
    ∀ (l : List (Nat × (K × Nat))) (st st' : ECS C K),
      remove_entity_loop e st l = some st' → ∀ kk,
      (st'.comp_metas kk).isSome = (st.comp_metas kk).isSome := by
  intro l
  induction l with
  | nil =>
    intro st st' h kk
    injection h with h
    rw [h]
  | cons p rest ih =>
    intro st st' h kk
    cases hstep : remove_entity_step e st p with
    | none =>
      simp only [remove_entity_loop, hstep] at h
      exact Option.noConfusion h
    | some st1 =>
      simp only [remove_entity_loop, hstep] at h
      rw [ih st1 st' h kk, remove_entity_step_dom hstep kk]

theorem remove_entity_dom {s : ECS C K} {e : Nat} {r : Option Unit} {s' : ECS C K}
    (h : s.remove_entity e = some (r, s')) (kk : K) :
    (s'.comp_metas kk).isSome = (s.comp_metas kk).isSome := by
  cases htr : s.entities.try_remove e with
  | none =>
    simp only [remove_entity, htr] at h
    injection h with h
    injection h with h1 h2
    rw [← h2]
  | some pr =>
    obtain ⟨u, ents⟩ := pr
    cases hr0 : s.relation_0 e with
    | none =>
      simp only [remove_entity, htr, hr0] at h
      injection h with h
      injection h with h1 h2
      rw [← h2]
    | some r0 =>
      cases hloop : remove_entity_loop e
          ⟨ents, s.comp_metas, s.relation_0.del e, s.relation_1⟩ r0.iter with
      | none =>
        simp only [remove_entity, htr, hr0, hloop] at h
        exact Option.noConfusion h
      | some st =>
        simp only [remove_entity, htr, hr0, hloop] at h
        injection h with h
        injection h with h1 h2
        rw [← h2]
        exact remove_entity_loop_dom r0.iter _ st hloop kk

theorem remove_comp_dom {s : ECS C K} {ck : K × Nat} {r : Option C} {s' : ECS C K}
    (h : s.remove_comp ck = some (r, s')) (kk : K) :
    (s'.comp_metas kk).isSome = (s.comp_metas kk).isSome := by
  cases hc : s.comp_metas ck.1 with
  | none =>
    simp only [remove_comp, hc] at h
    injection h with h
    injection h with h1 h2
    rw [← h2]
  | some cms =>
    cases hrm : cms.try_remove ck.2 with
    | none =>
      simp only [remove_comp, hc, hrm] at h
      injection h with h
      injection h with h1 h2
      rw [← h2]
    | some pr =>
      obtain ⟨meta, cms'⟩ := pr
      cases hr0 : s.relation_0 meta.entity_key with
      | none =>
        simp only [remove_comp, hc, hrm, hr0] at h
        exact Option.noConfusion h
      | some r0 =>
        cases htr0 : r0.try_remove meta.relation_0 with
        | none =>
          simp only [remove_comp, hc, hrm, hr0, htr0] at h
          exact Option.noConfusion h
        | some pr0 =>
          obtain ⟨t0, r0'⟩ := pr0
          cases hr1 : s.relation_1 (meta.entity_key, ck.1) with
          | none =>
            simp only [remove_comp, hc, hrm, hr0, htr0, hr1] at h
            exact Option.noConfusion h
          | some r1 =>
            cases htr1 : r1.try_remove meta.relation_1 with
            | none =>
              simp only [remove_comp, hc, hrm, hr0, htr0, hr1, htr1] at h
              exact Option.noConfusion h
            | some pr1 =>
              obtain ⟨t1, r1'⟩ := pr1
              simp only [remove_comp, hc, hrm, hr0, htr0, hr1, htr1] at h
              injection h with h
              injection h with h1 h2
              rw [← h2]
              show (s.comp_metas.ins ck.1 cms' kk).isSome = _
              by_cases hkk : kk = ck.1
              · subst hkk
                rw [HMap.ins_self, hc]
                rfl
              · rw [HMap.ins_ne _ _ _ _ hkk]

theorem write_comp_dom (s : ECS C K) (ck : K × Nat) (c : C) (kk : K) :
    ((s.write_comp ck c).comp_metas kk).isSome = (s.comp_metas kk).isSome := by
  cases hc : s.comp_metas ck.1 with
  | none =>
    have heq : s.write_comp ck c = s := by simp only [write_comp, hc]
    rw [heq]
  | some cms =>
    cases hg : cms.get ck.2 with
    | none =>
      have heq : s.write_comp ck c = s := by simp only [write_comp, hc, hg]
      rw [heq]
    | some meta =>
      have heq : s.write_comp ck c =
          s.with_comp ck.1 (cms.update ck.2 { meta with inner := c }) := by
        simp only [write_comp, with_comp, hc, hg]
      rw [heq]
      exact with_comp_dom _ _ _ (by rw [hc]; rfl) kk

theorem mut_all_dom {s : ECS C K} {kf : K} {f : Nat → C → C} {s' : ECS C K}
    (h : s.iter_comp_mut_apply kf f = some s') (kk : K) :
    (s'.comp_metas kk).isSome = (s.comp_metas kk).isSome := by
  cases hc : s.comp_metas kf with
  | none =>
    simp only [iter_comp_mut_apply, hc] at h
    exact Option.noConfusion h
  | some cms =>
    simp only [iter_comp_mut_apply, hc] at h
    injection h with h
    rw [← h]
    show (s.comp_metas.ins kf _ kk).isSome = _
    by_cases hkk : kk = kf
    · subst hkk
      rw [HMap.ins_self, hc]
      rfl
    · rw [HMap.ins_ne _ _ _ _ hkk]

theorem mut_ent_loop_dom {kf : K} {f : Nat → C → C} :
    ∀ (ks : List Nat) (st st' : ECS C K),
      mut_by_entity_loop kf f st ks = some st' → ∀ kk,
      (st'.comp_metas kk).isSome = (st.comp_metas kk).isSome := by
  intro ks
  induction ks with
  | nil =>
    intro st st' h kk
    injection h with h
    rw [h]
  | cons sk rest ih =>
    intro st st' h kk
    cases hc : st.comp_metas kf with
    | none =>
      simp only [mut_by_entity_loop, hc] at h
      exact Option.noConfusion h
    | some cms =>
      cases hg : cms.get sk with
      | none =>
        simp only [mut_by_entity_loop, hc, hg] at h
        exact Option.noConfusion h
      | some meta =>
        simp only [mut_by_entity_loop, hc, hg] at h
        rw [ih _ _ h kk]
        show (st.comp_metas.ins kf _ kk).isSome = _
        by_cases hkk : kk = kf
        · subst hkk
          rw [HMap.ins_self, hc]
          rfl
        · rw [HMap.ins_ne _ _ _ _ hkk]

theorem mut_ent_dom {s : ECS C K} {e : Nat} {kf : K} {f : Nat → C → C}
    {s' : ECS C K} (h : s.iter_comp_mut_by_entity_apply e kf f = some (some s'))
    (kk : K) : (s'.comp_metas kk).isSome = (s.comp_metas kk).isSome := by
  cases hc : s.comp_metas kf with
  | none =>
    simp only [iter_comp_mut_by_entity_apply, hc] at h
    injection h with h
    exact Option.noConfusion h
  | some cms =>
    cases hr1 : s.relation_1 (e, kf) with
    | none =>
      simp only [iter_comp_mut_by_entity_apply, hc, hr1] at h
      injection h with h
      exact Option.noConfusion h
    | some r1 =>
      cases hloop : mut_by_entity_loop kf f s (r1.iter.map Prod.snd) with
      | none =>
        simp only [iter_comp_mut_by_entity_apply, hc, hr1, hloop] at h
        exact Option.noConfusion h
      | some st =>
        simp only [iter_comp_mut_by_entity_apply, hc, hr1, hloop] at h
        injection h with h
        injection h with h
        rw [← h]
        exact mut_ent_loop_dom _ _ _ hloop kk

/-- The flag of `ReachK` coincides with the registration status of the kind:
`comp_metas kk` is occupied exactly when a component of kind `kk` has been
inserted since creation or the last `clear`. -/
theorem reachK_dom {kindOf : C → K} {kk : K} {s : ECS C K} {b : Bool}
    (h : ReachK kindOf kk s b) : (s.comp_metas kk).isSome = b := by
  induction h with
  | start => rfl
  | ins_ent _ ih => exact ih
  | rem_ent _ hre ih => rw [remove_entity_dom hre kk, ih]
  | @ins_comp s2 b2 e c _ ih =>
    cases he : s2.entities.get e with
    | none =>
      have h1 : (insert_comp kindOf s2 e c).1 = none := by
        simp only [insert_comp, he]
      have h2 : (insert_comp kindOf s2 e c).2 = s2 := by
        simp only [insert_comp, he]
      rw [h1, h2, ih]
      simp
    | some u =>
      have h1 : (insert_comp kindOf s2 e c).1 =
          some (kindOf c, ((s2.comp_metas (kindOf c)).getD Slab.new).vacant_key) := by
        simp only [insert_comp, he]
      have h2 : ((insert_comp kindOf s2 e c).2).comp_metas =
          s2.comp_metas.ins (kindOf c)
            (((s2.comp_metas (kindOf c)).getD Slab.new).insert
              ⟨c, e, (((s2.relation_0 e).getD Slab.new).insert
                  ((kindOf c), ((s2.comp_metas (kindOf c)).getD Slab.new).vacant_key)).1,
                (((s2.relation_1 (e, kindOf c)).getD Slab.new).insert
                  ((s2.comp_metas (kindOf c)).getD Slab.new).vacant_key).1⟩).2 := by
        simp only [insert_comp, he]
      rw [h1]
      by_cases hkc : kindOf c = kk
      · have : (s2.comp_metas kk).isSome = b2 := ih
        rw [show ((insert_comp kindOf s2 e c).2.comp_metas kk).isSome = true by
          rw [h2, ← hkc, HMap.ins_self]; rfl]
        simp [hkc]
      · rw [show ((insert_comp kindOf s2 e c).2.comp_metas kk).isSome =
            (s2.comp_metas kk).isSome by
          rw [h2, HMap.ins_ne _ _ _ _ (fun hEq => hkc hEq.symm)]]
        rw [ih]
        simp [hkc]
  | rem_comp _ hrc ih => rw [remove_comp_dom hrc kk, ih]
  | wr_comp ck c _ ih => rw [write_comp_dom _ ck c kk, ih]
  | mut_all _ hap ih => rw [mut_all_dom hap kk, ih]
  | mut_ent _ hap ih => rw [mut_ent_dom hap kk, ih]
  | clear_op _ => rfl

end ECS

/-- The component enum used by the crate's doctests and integration tests:
`enum Comp { I32(i32), Unit(()) }`.  `i32` values are modelled as `Int`; no
claim exercises 32-bit overflow. -/
inductive DemoComp : Type where
  | i32 (n : Int)
  | unitv
deriving DecidableEq

/-- The `strum` discriminant enum `CompKind` of `Comp`. -/
inductive DemoKind : Type where
  | kI32
  | kUnit
deriving DecidableEq

/-- The `CompKind: for<'a> From<&'a Comp>` conversion derived by `strum`. -/
def demoKindOf : DemoComp → DemoKind
  | .i32 _ => .kI32
  | .unitv => .kUnit

end EcsTiny

namespace EcsTiny

open ECS

/-- C4: in every state reachable from `ECS::new()` by public operations, the
bidirectional consistency invariant (I1, I2 and their converses) holds, and
consequently none of the internal `.check()` calls in `remove_entity`,
`remove_comp`, and the scoped iterators can panic: the remove operations never
return the panic outcome, scoped read iteration yields no failing element,
and scoped mutable iteration never returns the panic outcome. -/
theorem claim_C4_invariant {C K : Type} [DecidableEq K] (kindOf : C → K)
    {s : ECS C K} (h : Reachable kindOf s) :
    Inv s ∧
    (∀ e, s.remove_entity e ≠ none) ∧
    (∀ ck, s.remove_comp ck ≠ none) ∧
    (∀ e kk l, s.iter_comp_by_entity e kk = some l → ∀ x ∈ l, x.isSome) ∧
    (∀ e kk f, s.iter_comp_mut_by_entity_apply e kk f ≠ none) := by
  have hi := inv_reachable h
  exact ⟨hi, fun e => remove_entity_no_panic hi e,
    fun ck => remove_comp_no_panic hi ck,
    fun e kk l hl => iter_comp_by_entity_no_panic hi e kk hl,
    fun e kk f => mut_by_entity_no_panic hi e kk f⟩

/-- C4 witness: the invariant and panic-freedom at the initial store. -/
theorem claim_C4_invariant_witness :
    Inv (ECS.new : ECS DemoComp DemoKind) ∧
    ECS.remove_entity (ECS.new : ECS DemoComp DemoKind) 0 ≠ none ∧
    ECS.remove_comp (ECS.new : ECS DemoComp DemoKind) (DemoKind.kI32, 0) ≠ none := by
  have h := claim_C4_invariant demoKindOf Relation.ReflTransGen.refl
  exact ⟨h.1, h.2.1 0, h.2.2.1 (DemoKind.kI32, 0)⟩

/-- Intermediate demonstration stores: two entities, entity 0 holding
`I32 42` then `I32 63`, entity 1 holding `I32 42` then `Unit` — the scenario
of the crate's tests. -/
def demoS1 : ECS DemoComp DemoKind :=
  (ECS.insert_entity (ECS.new : ECS DemoComp DemoKind)).2

def demoS2 : ECS DemoComp DemoKind := (ECS.insert_entity demoS1).2

def demoS3 : ECS DemoComp DemoKind :=
  (ECS.insert_comp demoKindOf demoS2 0 (DemoComp.i32 42)).2

def demoS4 : ECS DemoComp DemoKind :=
  (ECS.insert_comp demoKindOf demoS3 0 (DemoComp.i32 63)).2

def demoS5 : ECS DemoComp DemoKind :=
  (ECS.insert_comp demoKindOf demoS4 1 (DemoComp.i32 42)).2

def demoS6 : ECS DemoComp DemoKind :=
  (ECS.insert_comp demoKindOf demoS5 1 DemoComp.unitv).2

theorem demoS1_reachable : Reachable demoKindOf demoS1 :=
  Relation.ReflTransGen.single (Step.insert_entity_st _)

theorem demoS2_reachable : Reachable demoKindOf demoS2 :=
  demoS1_reachable.tail (Step.insert_entity_st _)

theorem demoS3_reachable : Reachable demoKindOf demoS3 :=
  demoS2_reachable.tail (Step.insert_comp_st _ 0 (DemoComp.i32 42))

theorem demoS4_reachable : Reachable demoKindOf demoS4 :=
  demoS3_reachable.tail (Step.insert_comp_st _ 0 (DemoComp.i32 63))

theorem demoS5_reachable : Reachable demoKindOf demoS5 :=
  demoS4_reachable.tail (Step.insert_comp_st _ 1 (DemoComp.i32 42))

theorem demoS6_reachable : Reachable demoKindOf demoS6 :=
  demoS5_reachable.tail (Step.insert_comp_st _ 1 DemoComp.unitv)

/-- C1: cascade removal.  For a reachable store, if component key `k` is
owned by entity `e` (which in particular covers every key that
`insert_comp(e, v)` returned and that is still live), then `remove_entity e`
succeeds, and afterwards both `get_entity e` and `get_comp k` return `None` —
for all components owned by `e`, of any kind, with components of other
entities unaffected (the frame part is claim C6). -/
theorem claim_C1_cascade {C K : Type} [DecidableEq K] (kindOf : C → K)
    {s : ECS C K} (hreach : Reachable kindOf s) {k : K × Nat} {e : Nat}
    (hk : s.get_entity_by_comp k = some e) :
    ∃ s', s.remove_entity e = some (some (), s') ∧
      s'.get_entity e = none ∧ s'.get_comp k = none := by
  have h := inv_reachable hreach
  rw [get_entity_by_comp_eq] at hk
  cases hm : s.meta_at k.1 k.2 with
  | none => rw [hm] at hk; exact Option.noConfusion hk
  | some meta =>
    rw [hm, Option.map_some'] at hk
    injection hk with hk
    have hlive : s.entities.get e = some () := by
      rw [← hk]
      exact h.i1 k.1 k.2 meta hm
    have htr := Slab.try_remove_of_get hlive
    obtain ⟨st', hout, hents, -, -, -, hrm_all, -, -, -, -⟩ :=
      remove_entity_success h htr
    refine ⟨st', hout, ?_, ?_⟩
    · unfold get_entity
      rw [hents, Slab.try_remove_get_self htr]
      rfl
    · rw [get_comp_eq, hrm_all k.1 k.2 meta hm hk]
      rfl

/-- C1 witness: a store with one component; after removing its owner both
lookups fail. -/
theorem claim_C1_cascade_witness :
    ECS.get_entity ((ECS.remove_entity demoS3 0).getD (none, demoS3)).2 0 = none ∧
    ECS.get_comp ((ECS.remove_entity demoS3 0).getD (none, demoS3)).2
      (DemoKind.kI32, 0) = none := by
  obtain ⟨s', hout, h1, h2⟩ := claim_C1_cascade demoKindOf demoS3_reachable
    (show ECS.get_entity_by_comp demoS3 (DemoKind.kI32, 0) = some 0 by decide)
  rw [hout]
  exact ⟨h1, h2⟩

/-- C10: after removing an entity that owned at least one component of kind
`kk`, the scoped iterators for `(e, kk)` return `Some` of an empty iterator
rather than `None`: `remove_entity` empties but never deletes the
`relation_1` entry, and neither iterator checks that the entity is live. -/
theorem claim_C10_empty_iter {C K : Type} [DecidableEq K] (kindOf : C → K)
    {s : ECS C K} (hreach : Reachable kindOf s) {kk : K} {sk : Nat} {e : Nat}
    (hk : s.get_entity_by_comp (kk, sk) = some e) :
    ∃ s', s.remove_entity e = some (some (), s') ∧
      s'.iter_comp_by_entity e kk = some [] ∧
      ∀ f, s'.iter_comp_mut_by_entity_apply e kk f = some (some s') := by
  have h := inv_reachable hreach
  rw [get_entity_by_comp_eq] at hk
  cases hm : s.meta_at kk sk with
  | none => rw [hm] at hk; exact Option.noConfusion hk
  | some meta =>
    rw [hm, Option.map_some'] at hk
    injection hk with hk
    have hlive : s.entities.get e = some () := by
      rw [← hk]
      exact h.i1 kk sk meta hm
    have htr := Slab.try_remove_of_get hlive
    obtain ⟨st', hout, hents, hr0eq, hcd, hrd, hrm_all, hframe, hr1e, hr1o, hinv⟩ :=
      remove_entity_success h htr
    obtain ⟨cms, hc, hget⟩ := meta_at_eq_some.mp hm
    obtain ⟨r1, hr1, hg1⟩ := h.i2b kk sk meta hm
    rw [hk] at hr1
    have hcd' : (st'.comp_metas kk).isSome := by
      rw [hcd kk, hc]
      rfl
    obtain ⟨cms', hc'⟩ := Option.isSome_iff_exists.mp hcd'
    have hrd' : (st'.relation_1 (e, kk)).isSome := by
      rw [hrd (e, kk), hr1]
      rfl
    obtain ⟨r1', hr1'⟩ := Option.isSome_iff_exists.mp hrd'
    have hempty : r1'.iter = [] :=
      Slab.iter_eq_nil (fun i => hr1e kk r1' hr1' i)
    refine ⟨st', hout, ?_, ?_⟩
    · simp only [iter_comp_by_entity, hc', hr1', hempty, List.map_nil]
    · intro f
      simp only [iter_comp_mut_by_entity_apply, hc', hr1', hempty, List.map_nil,
        mut_by_entity_loop]

/-- C10 witness: entity 1 owned a `Unit` component; after its removal the
scoped iterators over `(1, Unit)` yield `Some` of an empty iteration. -/
theorem claim_C10_empty_iter_witness :
    ECS.iter_comp_by_entity ((ECS.remove_entity demoS6 1).getD (none, demoS6)).2
      1 DemoKind.kUnit = some [] ∧
    ECS.iter_comp_mut_by_entity_apply
      ((ECS.remove_entity demoS6 1).getD (none, demoS6)).2 1 DemoKind.kUnit
      (fun _ c => c) =
      some (some ((ECS.remove_entity demoS6 1).getD (none, demoS6)).2) := by
  obtain ⟨s', hout, h1, h2⟩ := claim_C10_empty_iter demoKindOf demoS6_reachable
    (show ECS.get_entity_by_comp demoS6 (DemoKind.kUnit, 0) = some 1 by decide)
  rw [hout]
  exact ⟨h1, h2 _⟩

/-- C2: round-trip.  In a reachable store, when `insert_comp e v` returns a
key `k`, an immediately following `get_comp k` returns the inserted value,
and `remove_comp k` instead would return `Some` of the value itself. -/
theorem claim_C2_roundtrip {C K : Type} [DecidableEq K] (kindOf : C → K)
    {s : ECS C K} (hreach : Reachable kindOf s) (e : Nat) (c : C) {k : K × Nat}
    (hk : (ECS.insert_comp kindOf s e c).1 = some k) :
    ECS.get_comp (ECS.insert_comp kindOf s e c).2 k = some c ∧
    ∃ s'', ECS.remove_comp (ECS.insert_comp kindOf s e c).2 k =
      some (some c, s'') := by
  have h := inv_reachable hreach
  cases he : s.entities.get e with
  | none =>
    have h1 : (ECS.insert_comp kindOf s e c).1 = none := by
      simp only [insert_comp, he]
    rw [h1] at hk
    exact Option.noConfusion hk
  | some u =>
    cases u
    obtain ⟨k', meta, h1, h2, h3, h4⟩ := insert_comp_spec kindOf h he c
    rw [h1] at hk
    injection hk with hk
    subst hk
    constructor
    · rw [get_comp_eq, h2, Option.map_some', h3]
    · have hinv' := inv_insert_comp kindOf h e c
      obtain ⟨cms, hc, hget⟩ := meta_at_eq_some.mp h2
      obtain ⟨cms', htr⟩ : ∃ cms', cms.try_remove k'.2 = some (meta, cms') :=
        ⟨_, Slab.try_remove_of_get hget⟩
      obtain ⟨r0, t0, r0', r1, t1, r1', hr0, htr0, ht0, hr1, htr1, ht1, hout⟩ :=
        remove_comp_success hinv' hc htr
      rw [h3] at hout
      exact ⟨_, hout⟩

/-- C2 witness: inserting `I32 5` into a live entity and reading or removing
it back. -/
theorem claim_C2_roundtrip_witness :
    ECS.get_comp (ECS.insert_comp demoKindOf demoS1 0 (DemoComp.i32 5)).2
      (DemoKind.kI32, 0) = some (DemoComp.i32 5) ∧
    (ECS.remove_comp (ECS.insert_comp demoKindOf demoS1 0 (DemoComp.i32 5)).2
      (DemoKind.kI32, 0)).map Prod.fst = some (some (DemoComp.i32 5)) := by
  obtain ⟨h1, s'', h2⟩ := claim_C2_roundtrip demoKindOf demoS1_reachable 0
    (DemoComp.i32 5)
    (show (ECS.insert_comp demoKindOf demoS1 0 (DemoComp.i32 5)).1 =
      some (DemoKind.kI32, 0) by decide)
  refine ⟨h1, ?_⟩
  rw [h2]
  rfl

/-- C8: `iter_comp` and `iter_comp_mut` return `None` exactly when no
component of the kind has been inserted since the store was created or last
cleared (tracked by the flag of `ReachK`); in particular removals never
unregister a kind, so after removing every component of a kind the calls
return an empty iterator rather than `None`. -/
theorem claim_C8_registration {C K : Type} [DecidableEq K] (kindOf : C → K)
    {kk : K} {s : ECS C K} {b : Bool} (h : ReachK kindOf kk s b) :
    (s.iter_comp kk = none ↔ b = false) ∧
    (∀ f, s.iter_comp_mut_apply kk f = none ↔ b = false) := by
  have hdom := reachK_dom h
  constructor
  · unfold iter_comp
    cases hc : s.comp_metas kk with
    | none =>
      rw [hc] at hdom
      simp only [Option.map_none']
      simp at hdom
      simp [hdom]
    | some cms =>
      rw [hc] at hdom
      simp only [Option.map_some']
      simp at hdom
      simp [← hdom]
  · intro f
    unfold iter_comp_mut_apply
    cases hc : s.comp_metas kk with
    | none =>
      rw [hc] at hdom
      simp at hdom
      simp [hdom]
    | some cms =>
      rw [hc] at hdom
      simp at hdom
      simp [← hdom]

/-- C8 witness: in a fresh store the kind is unregistered and both calls
return `None`; after one insertion of that kind they do not. -/
theorem claim_C8_registration_witness :
    (ECS.iter_comp (ECS.new : ECS DemoComp DemoKind) DemoKind.kI32 = none ↔
      false = false) ∧
    (ECS.iter_comp
        (ECS.insert_comp demoKindOf (ECS.insert_entity (ECS.new : ECS DemoComp DemoKind)).2
          (ECS.insert_entity (ECS.new : ECS DemoComp DemoKind)).1 (DemoComp.i32 42)).2
        DemoKind.kI32 = none ↔ true = false) := by
  constructor
  · exact (claim_C8_registration demoKindOf
      (ReachK.start : ReachK demoKindOf DemoKind.kI32 ECS.new false)).1
  · have hRK : ReachK demoKindOf DemoKind.kI32
        (ECS.insert_comp demoKindOf
          (ECS.insert_entity (ECS.new : ECS DemoComp DemoKind)).2
          (ECS.insert_entity (ECS.new : ECS DemoComp DemoKind)).1
          (DemoComp.i32 42)).2
        (false || ((ECS.insert_comp demoKindOf
            (ECS.insert_entity (ECS.new : ECS DemoComp DemoKind)).2
            (ECS.insert_entity (ECS.new : ECS DemoComp DemoKind)).1
            (DemoComp.i32 42)).1.isSome &&
          decide (demoKindOf (DemoComp.i32 42) = DemoKind.kI32))) :=
      ReachK.ins_comp _ _ (ReachK.ins_ent ReachK.start)
    have h2 := (claim_C8_registration demoKindOf hRK).1
    rw [show (false || ((ECS.insert_comp demoKindOf
        (ECS.insert_entity (ECS.new : ECS DemoComp DemoKind)).2
        (ECS.insert_entity (ECS.new : ECS DemoComp DemoKind)).1
        (DemoComp.i32 42)).1.isSome &&
      decide (demoKindOf (DemoComp.i32 42) = DemoKind.kI32))) = true from by decide] at h2
    exact h2

/-- C5: for every store state and value, `insert_comp` returns `None` exactly
when the entity key is stale; on `None` the store is completely unchanged; on
a live entity it always succeeds, the per-kind store exists afterwards
(created on first use), and the returned key is the pair of the value's kind
and the vacant slot key of that kind's store. -/
theorem claim_C5_insert_error {C K : Type} [DecidableEq K] (kindOf : C → K)
    (s : ECS C K) (e : Nat) (c : C) :
    ((ECS.insert_comp kindOf s e c).1 = none ↔ ECS.get_entity s e = none) ∧
    ((ECS.insert_comp kindOf s e c).1 = none →
      (ECS.insert_comp kindOf s e c).2 = s) ∧
    (ECS.get_entity s e ≠ none →
      (ECS.insert_comp kindOf s e c).1 =
        some (kindOf c, ((s.comp_metas (kindOf c)).getD Slab.new).vacant_key) ∧
      ((ECS.insert_comp kindOf s e c).2.comp_metas (kindOf c)).isSome) := by
  cases he : s.entities.get e with
  | none =>
    have hge : ECS.get_entity s e = none := by
      unfold ECS.get_entity
      rw [he]
      rfl
    have h1 : (ECS.insert_comp kindOf s e c).1 = none := by
      simp only [ECS.insert_comp, he]
    have h2 : (ECS.insert_comp kindOf s e c).2 = s := by
      simp only [ECS.insert_comp, he]
    exact ⟨⟨fun _ => hge, fun _ => h1⟩, fun _ => h2, fun hne => absurd hge hne⟩
  | some u =>
    cases u
    have hge : ECS.get_entity s e = some () := by
      unfold ECS.get_entity
      rw [he]
      rfl
    have h1 : (ECS.insert_comp kindOf s e c).1 =
        some (kindOf c, ((s.comp_metas (kindOf c)).getD Slab.new).vacant_key) := by
      simp only [ECS.insert_comp, he]
    have hns : (ECS.insert_comp kindOf s e c).1 ≠ none := by
      rw [h1]
      exact fun hx => Option.noConfusion hx
    have hgs : ECS.get_entity s e ≠ none := by
      rw [hge]
      exact fun hx => Option.noConfusion hx
    refine ⟨⟨fun hx => absurd hx hns, fun hx => absurd hx hgs⟩,
      fun hx => absurd hx hns, fun _ => ⟨h1, ?_⟩⟩
    have h2 : (ECS.insert_comp kindOf s e c).2.comp_metas (kindOf c) =
        some (((s.comp_metas (kindOf c)).getD Slab.new).insert
          ⟨c, e, (((s.relation_0 e).getD Slab.new).insert
              (kindOf c, ((s.comp_metas (kindOf c)).getD Slab.new).vacant_key)).1,
            (((s.relation_1 (e, kindOf c)).getD Slab.new).insert
              ((s.comp_metas (kindOf c)).getD Slab.new).vacant_key).1⟩).2 := by
      simp only [ECS.insert_comp, he]
      exact HMap.ins_self ..
    rw [h2]
    rfl

/-- C3: in the test scenario (entity 0 holding `I32 42` then `I32 63`, entity
1 holding `I32 42` then `Unit`), scoped iteration over entity 0 and kind
`I32` yields exactly `[42, 63]` in insertion order — the same before and
after entity 1's components were added — and global iteration over kind
`I32` yields `[42, 63, 42]` and terminates (a finite list). -/
theorem claim_C3_iteration :
    ECS.iter_comp_by_entity demoS6 0 DemoKind.kI32 =
      some [some (DemoComp.i32 42), some (DemoComp.i32 63)] ∧
    ECS.iter_comp_by_entity demoS4 0 DemoKind.kI32 =
      some [some (DemoComp.i32 42), some (DemoComp.i32 63)] ∧
    ECS.iter_comp demoS6 DemoKind.kI32 =
      some [DemoComp.i32 42, DemoComp.i32 63, DemoComp.i32 42] := by
  refine ⟨?_, ?_, ?_⟩ <;> decide

/-- `remove_comp` leaves the entity slab untouched and every component record
at a key other than the removed one in place. -/
theorem remove_comp_frame {C K : Type} [DecidableEq K] {s : ECS C K}
    (h : Inv s) {ck : K × Nat} {r : Option C} {s' : ECS C K}
    (hrc : ECS.remove_comp s ck = some (r, s')) :
    s'.entities = s.entities ∧
    ∀ kk sk, (kk, sk) ≠ ck → ECS.meta_at s' kk sk = ECS.meta_at s kk sk := by
  cases hc : s.comp_metas ck.1 with
  | none =>
    simp only [ECS.remove_comp, hc] at hrc
    injection hrc with hrc
    injection hrc with hrc1 hrc2
    rw [← hrc2]
    exact ⟨rfl, fun kk sk _ => rfl⟩
  | some cms =>
    cases hrm : cms.try_remove ck.2 with
    | none =>
      simp only [ECS.remove_comp, hc, hrm] at hrc
      injection hrc with hrc
      injection hrc with hrc1 hrc2
      rw [← hrc2]
      exact ⟨rfl, fun kk sk _ => rfl⟩
    | some pr =>
      obtain ⟨meta, cms'⟩ := pr
      obtain ⟨r0, t0, r0', r1, t1, r1', hr0, htr0, ht0, hr1, htr1, ht1, hout⟩ :=
        remove_comp_success h hc hrm
      rw [hout] at hrc
      injection hrc with hrc
      injection hrc with hrc1 hrc2
      rw [← hrc2]
      refine ⟨rfl, fun kk sk hne => ?_⟩
      by_cases hkk : kk = ck.1
      · subst hkk
        have hsk : sk ≠ ck.2 := fun hEq => hne (by rw [hEq])
        show (match s.comp_metas.ins ck.1 cms' ck.1 with
              | none => none
              | some c2 => c2.get sk) = ECS.meta_at s ck.1 sk
        rw [HMap.ins_self]
        show cms'.get sk = ECS.meta_at s ck.1 sk
        rw [Slab.try_remove_get_ne hrm sk hsk]
        unfold ECS.meta_at
        rw [hc]
      · show (match s.comp_metas.ins ck.1 cms' kk with
              | none => none
              | some c2 => c2.get sk) = ECS.meta_at s kk sk
        rw [HMap.ins_ne _ _ _ _ hkk]
        rfl

/-- `insert_comp` (successful or not) leaves every already-occupied component
record in place. -/
theorem insert_comp_meta_frame {C K : Type} [DecidableEq K] (kindOf : C → K)
    {s : ECS C K} (h : Inv s) (e : Nat) (c : C) (kk : K) (sk : Nat)
    (hlive : (ECS.meta_at s kk sk).isSome) :
    ECS.meta_at (ECS.insert_comp kindOf s e c).2 kk sk = ECS.meta_at s kk sk := by
  cases he : s.entities.get e with
  | none =>
    have h2 : (ECS.insert_comp kindOf s e c).2 = s := by
      simp only [ECS.insert_comp, he]
    rw [h2]
  | some u =>
    cases u
    obtain ⟨m0, hm0⟩ := Option.isSome_iff_exists.mp hlive
    obtain ⟨cms0, hc0, hg0⟩ := meta_at_eq_some.mp hm0
    by_cases hkk : kk = kindOf c
    · subst hkk
      have hwf0 : cms0.WF := h.wf_comp _ _ hc0
      have hskne : sk ≠ cms0.next := by
        intro hEq
        rw [hEq, Slab.get_next_none hwf0] at hg0
        exact Option.noConfusion hg0
      have h2 : (ECS.insert_comp kindOf s e c).2.comp_metas (kindOf c) =
          some (((s.comp_metas (kindOf c)).getD Slab.new).insert
            ⟨c, e, (((s.relation_0 e).getD Slab.new).insert
                (kindOf c, ((s.comp_metas (kindOf c)).getD Slab.new).vacant_key)).1,
              (((s.relation_1 (e, kindOf c)).getD Slab.new).insert
                ((s.comp_metas (kindOf c)).getD Slab.new).vacant_key).1⟩).2 := by
        simp only [ECS.insert_comp, he]
        exact HMap.ins_self ..
      have hgetD : (s.comp_metas (kindOf c)).getD Slab.new = cms0 := by
        rw [hc0]
        rfl
      rw [hgetD] at h2
      unfold ECS.meta_at
      rw [h2, hc0]
      show (Slab.insert cms0 _).2.get sk = cms0.get sk
      exact (Slab.insert_spec hwf0 _).2.2.1 sk hskne
    · have h2 : (ECS.insert_comp kindOf s e c).2.comp_metas kk = s.comp_metas kk := by
        simp only [ECS.insert_comp, he]
        exact HMap.ins_ne _ _ _ _ hkk
      unfold ECS.meta_at
      rw [h2]

/-- `insert_comp` never touches the entity slab. -/
theorem insert_comp_entities {C K : Type} [DecidableEq K] (kindOf : C → K)
    (s : ECS C K) (e : Nat) (c : C) :
    (ECS.insert_comp kindOf s e c).2.entities = s.entities := by
  cases he : s.entities.get e with
  | none => simp only [ECS.insert_comp, he]
  | some u => simp only [ECS.insert_comp, he]

/-- C6: frame property.  In a reachable store, `remove_comp ck` keeps every
entity key's liveness and leaves every component key other than `ck` reading
the same value and the same owner; `insert_entity` changes no component key
and no previously live entity key; `insert_comp` changes no occupied
component key and no entity key at all. -/
theorem claim_C6_frame {C K : Type} [DecidableEq K] (kindOf : C → K)
    {s : ECS C K} (hreach : Reachable kindOf s) :
    (∀ ck r s', ECS.remove_comp s ck = some (r, s') →
      (∀ e, ECS.get_entity s' e = ECS.get_entity s e) ∧
      ∀ ck2, ck2 ≠ ck →
        ECS.get_comp s' ck2 = ECS.get_comp s ck2 ∧
        ECS.get_entity_by_comp s' ck2 = ECS.get_entity_by_comp s ck2) ∧
    (∀ ck2, ECS.get_comp (ECS.insert_entity s).2 ck2 = ECS.get_comp s ck2 ∧
      ECS.get_entity_by_comp (ECS.insert_entity s).2 ck2 =
        ECS.get_entity_by_comp s ck2) ∧
    (∀ e, ECS.get_entity s e ≠ none →
      ECS.get_entity (ECS.insert_entity s).2 e = ECS.get_entity s e) ∧
    (∀ e c ck2, (ECS.get_comp s ck2).isSome →
      ECS.get_comp (ECS.insert_comp kindOf s e c).2 ck2 = ECS.get_comp s ck2 ∧
      ECS.get_entity_by_comp (ECS.insert_comp kindOf s e c).2 ck2 =
        ECS.get_entity_by_comp s ck2) ∧
    (∀ e c e2, ECS.get_entity (ECS.insert_comp kindOf s e c).2 e2 =
      ECS.get_entity s e2) := by
  have h := inv_reachable hreach
  refine ⟨?_, ?_, ?_, ?_, ?_⟩
  · intro ck r s' hrc
    obtain ⟨hents, hmeta⟩ := remove_comp_frame h hrc
    refine ⟨?_, ?_⟩
    · intro e
      unfold ECS.get_entity
      rw [hents]
    · intro ck2 hne
      have hne2 : ((ck2.1, ck2.2) : K × Nat) ≠ ck :=
        fun hEq => hne (Prod.mk.eta.symm.trans hEq)
      rw [get_comp_eq, get_comp_eq, get_entity_by_comp_eq, get_entity_by_comp_eq,
        hmeta ck2.1 ck2.2 hne2]
      exact ⟨rfl, rfl⟩
  · intro ck2
    exact ⟨rfl, rfl⟩
  · intro e hlive
    have hwf := h.wf_entities
    by_cases hnext : e = s.entities.next
    · exfalso
      apply hlive
      unfold ECS.get_entity
      rw [hnext, Slab.get_next_none hwf]
      rfl
    · show ((s.entities.insert ()).2.get e).map (fun _ => ()) =
        (s.entities.get e).map (fun _ => ())
      rw [(Slab.insert_spec hwf ()).2.2.1 e hnext]
  · intro e c ck2 hlive
    have hlive2 : (ECS.meta_at s ck2.1 ck2.2).isSome := by
      rw [get_comp_eq] at hlive
      cases hm : ECS.meta_at s ck2.1 ck2.2 with
      | none =>
        rw [hm] at hlive
        simp at hlive
      | some m => rfl
    have hfr := insert_comp_meta_frame kindOf h e c ck2.1 ck2.2 hlive2
    rw [get_comp_eq, get_comp_eq, get_entity_by_comp_eq, get_entity_by_comp_eq, hfr]
    exact ⟨rfl, rfl⟩
  · intro e c e2
    unfold ECS.get_entity
    rw [insert_comp_entities kindOf s e c]

/-- C6 witness: in the two-component store, removing component `(I32, 0)`
leaves key `(I32, 1)` reading the same value, and inserting a component into
entity 1 leaves key `(I32, 0)` unchanged. -/
theorem claim_C6_frame_witness :
    ECS.get_comp ((ECS.remove_comp demoS4 (DemoKind.kI32, 0)).getD
        (none, demoS4)).2 (DemoKind.kI32, 1) =
      ECS.get_comp demoS4 (DemoKind.kI32, 1) ∧
    ECS.get_comp (ECS.insert_comp demoKindOf demoS4 1 DemoComp.unitv).2
      (DemoKind.kI32, 0) = ECS.get_comp demoS4 (DemoKind.kI32, 0) := by
  have h := claim_C6_frame demoKindOf demoS4_reachable
  have hrc : ECS.remove_comp demoS4 (DemoKind.kI32, 0) =
      some (((ECS.remove_comp demoS4 (DemoKind.kI32, 0)).getD (none, demoS4)).1,
        ((ECS.remove_comp demoS4 (DemoKind.kI32, 0)).getD (none, demoS4)).2) := rfl
  exact ⟨((h.1 _ _ _ hrc).2 (DemoKind.kI32, 1) (by decide)).1,
    (h.2.2.2.1 1 DemoComp.unitv (DemoKind.kI32, 0) (by decide)).1⟩

/-- C7: mutation visibility.  In a reachable store, if a caller drains
`iter_comp_mut_by_entity e kk` writing `f slab_key old` through every yielded
mutable reference and the drain completes, then the slot keys visited (the
`relation_1` entries for `(e, kk)`) are pairwise distinct, a subsequent
`get_comp` on every visited key of kind `kk` returns the mutated value, and
every component of kind `kk` owned by `e` is among the visited slots (so each
is yielded exactly once). -/
theorem claim_C7_mutation {C K : Type} [DecidableEq K] (kindOf : C → K)
    {s : ECS C K} (hreach : Reachable kindOf s) (e : Nat) (kk : K)
    (f : Nat → C → C) {s' : ECS C K}
    (hap : ECS.iter_comp_mut_by_entity_apply s e kk f = some (some s')) :
    ∃ r1, s.relation_1 (e, kk) = some r1 ∧
      (r1.iter.map Prod.snd).Nodup ∧
      (∀ sk, sk ∈ r1.iter.map Prod.snd →
        ECS.get_comp s' (kk, sk) = (ECS.get_comp s (kk, sk)).map (f sk)) ∧
      (∀ sk meta, ECS.meta_at s kk sk = some meta → meta.entity_key = e →
        sk ∈ r1.iter.map Prod.snd) := by
  have h := inv_reachable hreach
  rcases iter_comp_mut_by_entity_total h e kk f with hnone | ⟨s2, r1, hap2, hr1,
    hnd, hent, hrel0, hrel1, hdom, hin, hout, hother, hinv⟩
  · rw [hnone] at hap
    injection hap with hap
    exact Option.noConfusion hap
  · rw [hap2] at hap
    injection hap with hap
    injection hap with hap
    subst hap
    refine ⟨r1, hr1, hnd, ?_, ?_⟩
    · intro sk hsk
      have hgc1 : ECS.get_comp s2 (kk, sk) =
          (ECS.meta_at s2 kk sk).map CompMeta.inner := get_comp_eq s2 (kk, sk)
      have hgc2 : ECS.get_comp s (kk, sk) =
          (ECS.meta_at s kk sk).map CompMeta.inner := get_comp_eq s (kk, sk)
      rw [hgc1, hgc2, hin sk hsk]
      cases hm : ECS.meta_at s kk sk with
      | none => rfl
      | some m => rfl
    · intro sk meta hm hme
      obtain ⟨r1b, hr1b, hg1⟩ := h.i2b kk sk meta hm
      rw [hme, hr1] at hr1b
      injection hr1b with hr1b
      rw [← hr1b] at hg1
      exact List.mem_map.mpr ⟨(meta.relation_1, sk),
        Slab.mem_iter_pair.mpr hg1, rfl⟩

/-- C7 witness: overwriting both `I32` components of entity 0 with `I32 7`
through the scoped mutable iterator is visible to `get_comp` on both keys. -/
theorem claim_C7_mutation_witness :
    ECS.get_comp (((ECS.iter_comp_mut_by_entity_apply demoS4 0 DemoKind.kI32
        (fun _ _ => DemoComp.i32 7)).getD (some demoS4)).getD demoS4)
      (DemoKind.kI32, 0) = some (DemoComp.i32 7) ∧
    ECS.get_comp (((ECS.iter_comp_mut_by_entity_apply demoS4 0 DemoKind.kI32
        (fun _ _ => DemoComp.i32 7)).getD (some demoS4)).getD demoS4)
      (DemoKind.kI32, 1) = some (DemoComp.i32 7) := by
  obtain ⟨r1, hr1, hnd, hvis, hcompl⟩ :=
    @claim_C7_mutation DemoComp DemoKind _ demoKindOf demoS4 demoS4_reachable
      0 DemoKind.kI32 (fun _ _ => DemoComp.i32 7)
      (((ECS.iter_comp_mut_by_entity_apply demoS4 0 DemoKind.kI32
          (fun _ _ => DemoComp.i32 7)).getD (some demoS4)).getD demoS4) rfl
  have hm0 : ECS.meta_at demoS4 DemoKind.kI32 0 =
      some ⟨DemoComp.i32 42, 0, 0, 0⟩ := rfl
  have hm1 : ECS.meta_at demoS4 DemoKind.kI32 1 =
      some ⟨DemoComp.i32 63, 0, 1, 1⟩ := rfl
  have h0 : (0 : Nat) ∈ r1.iter.map Prod.snd := hcompl 0 _ hm0 rfl
  have h1 : (1 : Nat) ∈ r1.iter.map Prod.snd := hcompl 1 _ hm1 rfl
  constructor
  · rw [hvis 0 h0]
    decide
  · rw [hvis 1 h1]
    decide

/-- C9: key reuse without a generation check, concretely.  From a fresh
store, the first `insert_entity` returns key 0; after `remove_entity 0`
succeeds, the next `insert_entity` returns key 0 again, the stale copy of the
key now reads the new record (`get_entity` succeeds) and `insert_comp`
against it succeeds, targeting the new entity.  Likewise within a kind's
component store: insert, remove and re-insert of an `I32` component all use
slab key 0, and the stale component key reads the new record's value. -/
theorem claim_C9_key_reuse :
    (ECS.insert_entity (ECS.new : ECS DemoComp DemoKind)).1 = 0 ∧
    (ECS.remove_entity demoS1 0).map Prod.fst = some (some ()) ∧
    (ECS.insert_entity ((ECS.remove_entity demoS1 0).getD (none, demoS1)).2).1
      = 0 ∧
    ECS.get_entity (ECS.insert_entity ((ECS.remove_entity demoS1 0).getD
      (none, demoS1)).2).2 0 = some () ∧
    (ECS.insert_comp demoKindOf (ECS.insert_entity ((ECS.remove_entity demoS1
        0).getD (none, demoS1)).2).2 0 (DemoComp.i32 7)).1 =
      some (DemoKind.kI32, 0) ∧
    (ECS.insert_comp demoKindOf demoS2 0 (DemoComp.i32 1)).1 =
      some (DemoKind.kI32, 0) ∧
    ((ECS.remove_comp (ECS.insert_comp demoKindOf demoS2 0 (DemoComp.i32 1)).2
        (DemoKind.kI32, 0)).getD (none, demoS2)).1 = some (DemoComp.i32 1) ∧
    (ECS.insert_comp demoKindOf ((ECS.remove_comp (ECS.insert_comp demoKindOf
        demoS2 0 (DemoComp.i32 1)).2 (DemoKind.kI32, 0)).getD
        (none, demoS2)).2 0 (DemoComp.i32 2)).1 = some (DemoKind.kI32, 0) ∧
    ECS.get_comp (ECS.insert_comp demoKindOf ((ECS.remove_comp (ECS.insert_comp
        demoKindOf demoS2 0 (DemoComp.i32 1)).2 (DemoKind.kI32, 0)).getD
        (none, demoS2)).2 0 (DemoComp.i32 2)).2 (DemoKind.kI32, 0) =
      some (DemoComp.i32 2) := by
  decide

end EcsTiny
